import Mathlib

/-!
# go-schedule: a shallow embedding of the scheduling engine

The development follows the four components of the package `schedule`:
`Trigger` (trigger.go), `Job` (job.go), `Queue` (queue.go) and `Scheduler`
(scheduler.go).

Modelling conventions.

* A `time.Time` is an integer (`Int`) count of nanoseconds relative to the
  zero value `time.Time{}`; instants before the zero time are negative.  A
  `time.Duration` is an integer count of nanoseconds.  Arithmetic is
  unbounded: overflow of the 64-bit representations is outside the model.
* Every call of `time.Now()` is an explicit argument of the function that
  makes it.
* A `*Job` is an address (`JobPtr`) into a heap of job records, so that the
  identity comparison `job == j` of queue.go is equality of addresses.  A
  `*Queue` in the registry of a scheduler is likewise an address (`QueuePtr`)
  into a heap of queue records, `none` standing for nil.
* A buffered channel is its capacity and its queued entries, oldest first.
  A send on a full channel does not complete; operations that may block this
  way return an `Option`, `none` standing for "blocked".
-/

namespace Schedule

/-! ## Time -/

/-- The zero value `time.Time{}`. -/
@[simp] def Time.zero : Int := 0

/-- The method `IsZero` of `time.Time`. -/
@[simp] def Time.IsZero (t : Int) : Bool := decide (t = Time.zero)

/-- The method `Before` of `time.Time`. -/
@[simp] def Time.Before (t u : Int) : Bool := decide (t < u)

/-- The method `After` of `time.Time`. -/
@[simp] def Time.After (t u : Int) : Bool := decide (u < t)

/-- The method `Add` of `time.Time`. -/
@[simp] def Time.Add (t d : Int) : Int := t + d

/-! ## Trigger (trigger.go) -/

/-- The struct `Trigger`.  The field `interval` is unexported and is written
only by `NewTrigger` (with 0) and by `Every` (which clamps negative durations
to 0), so every trigger carries a non-negative interval; the record keeps that
fact, which is what makes the loop of `Next` terminate. -/
structure Trigger where
  interval : Int
  start : Int
  limit : Int
  interval_nonneg : 0 ≤ interval

/-- The constructor `NewTrigger`; `now` is the reading of the clock. -/
def NewTrigger (now : Int) : Trigger :=
  { interval := 0, start := now, limit := 0, interval_nonneg := le_refl 0 }

/-- The method `Every`, after `time.ParseDuration` has produced `d`. -/
def Trigger.Every (t : Trigger) (d : Int) : Trigger :=
  if h : d < 0 then
    { t with interval := 0, interval_nonneg := le_refl 0 }
  else
    { t with interval := d, interval_nonneg := not_lt.mp h }

/-- The method `Every` from its string argument: the trigger it leaves and the
error it panics with.  `parse` stands for `time.ParseDuration`; the panic on a
parse error comes before any write. -/
def Trigger.Every.ofString (parse : String → Except String Int) (t : Trigger)
    (str : String) : Trigger × Option String :=
  match parse str with
  | Except.error err => (t, some err)
  | Except.ok d => (t.Every d, none)

/-- The method `Limit`. -/
def Trigger.Limit (t : Trigger) (n : Int) : Trigger :=
  { t with limit := if n < 0 then 0 else n }

/-- The method `From`. -/
def Trigger.From (t : Trigger) (tm : Int) : Trigger :=
  { t with start := tm }

/-- The `for next.Before(now)` loop of `Next`, entered with the candidate
`next` and the occurrence counter `current`. -/
def Trigger.Next.loop (interval : Int) (hpos : 0 < interval) (limit : Int)
    (now : Int) (next : Int) (current : Int) : Int :=
  if h : Time.Before next now then
    let current := current + 1
    if 0 < limit ∧ limit ≤ current then
      next
    else
      Trigger.Next.loop interval hpos limit now (Time.Add next interval) current
  else
    next
termination_by (now - next).toNat
decreasing_by
  have hlt : next < now := of_decide_eq_true h
  simp only [Time.Add]
  omega

/-- The method `Next`; `now` is the reading of the clock. -/
def Trigger.Next (t : Trigger) (now : Int) : Int :=
  if h : t.interval = 0 then
    Time.zero
  else
    let next := Time.Add t.start t.interval
    Trigger.Next.loop t.interval
      (lt_of_le_of_ne t.interval_nonneg (Ne.symm h)) t.limit now next 0

/-! ## Job (job.go) -/

/-- Values passed to and returned by job functions (`interface{}`). -/
inductive Value where
  | int (n : Int)
  | str (s : String)
  deriving DecidableEq, Repr

/-- The value carried by a panic; the `switch e.(type)` of `Run` tells an
`error` from every other value.  A panic carries a non-nil value, so that
`recover()` returns nil only when nothing panicked. -/
inductive PanicValue where
  | error (msg : String)
  | value (v : Value)
  deriving DecidableEq, Repr

/-- How the invocation of a function ends. -/
inductive CallOutcome where
  | returned (results : List Value)
  | panicked (e : PanicValue)
  deriving DecidableEq, Repr

/-- A `reflect.Value` of kind `Func`.  `check args` is the test `Call` makes
of the arguments against the signature of the function (`some msg` when they
do not fit, `msg` being the message `Call` panics with); `body` is the
function itself. -/
structure Func where
  check : List Value → Option String
  body : List Value → CallOutcome

/-- The method `Call` of `reflect.Value`. -/
def Func.Call (f : Func) (args : List Value) : CallOutcome :=
  match f.check args with
  | some msg => CallOutcome.panicked (PanicValue.value (Value.str msg))
  | none => f.body args

/-- The errors built in the package, one constructor for each message:
`jobPanickedWithError` for a job that panicked with an error,
`jobPanickedWithValue` for a job that panicked with another value, and
`alreadyRunning` for a scheduler that is already running. -/
inductive Error where
  | jobPanickedWithError (msg : String)
  | jobPanickedWithValue (v : Value)
  | alreadyRunning
  deriving DecidableEq, Repr

/-- The struct `JobResult`. -/
structure JobResult where
  Name : String
  Results : List Value
  deriving DecidableEq, Repr

/-- The struct `JobError`. -/
structure JobError where
  Name : String
  Error : Option Error
  deriving DecidableEq, Repr

/-- The struct `Job`. -/
structure Job where
  Name : String
  function : Func
  args : List Value
  trigger : Trigger
  last : Int

/-- The constructor `NewJob` for a value of kind `Func`; the field `last` is
left at its zero value.  `now` is the clock reading of `NewTrigger`. -/
def NewJob (name : String) (function : Func) (args : List Value) (now : Int) : Job :=
  { Name := name, function := function, args := args, trigger := NewTrigger now,
    last := Time.zero }

/-- The method `LastRun`. -/
def Job.LastRun (j : Job) : Int := j.last

/-- The method `NextRun`; `now` is the clock reading made by `Trigger.Next`. -/
def Job.NextRun (j : Job) (now : Int) : Int :=
  let next := j.trigger.Next now
  if Time.Before j.last next then next else Time.zero

/-- The method `Run`, returning the job after the call, the named result
`result` and the named result `err`.  `now` is the clock reading of the
deferred function, made only when `recover()` finds no panic.  A call that
panics never reaches the `range`, so `result` is still nil. -/
def Job.Run (j : Job) (now : Int) : Job × List Value × Option Error :=
  match j.function.Call j.args with
  | CallOutcome.panicked (PanicValue.error msg) =>
      (j, [], some (Error.jobPanickedWithError msg))
  | CallOutcome.panicked (PanicValue.value v) =>
      (j, [], some (Error.jobPanickedWithValue v))
  | CallOutcome.returned rs =>
      ({ j with last := now }, rs.foldl (fun result res => result ++ [res]) [], none)

/-- The method `Schedule`: installs a fresh trigger. -/
def Job.Schedule (j : Job) (now : Int) : Job :=
  { j with trigger := NewTrigger now }

/-- The test `!next.IsZero() && !next.After(time.Now())` that `Queue.Run` makes
of a job: `t1` is the clock reading inside `NextRun`, `t2` the later one of the
comparison. -/
def Job.due (j : Job) (t1 t2 : Int) : Bool :=
  let next := j.NextRun t1
  !Time.IsZero next && !Time.After next t2

/-- Addresses of jobs: the queue stores `*Job`. -/
abbrev JobPtr := Nat

/-- The job records, by address. -/
abbrev Heap := JobPtr → Job

/-! ## Buffered channels -/

/-- A buffered channel: capacity and queued entries, oldest first. -/
structure Chan (α : Type) where
  cap : Nat
  buf : List α
  deriving DecidableEq, Repr

/-- The allocation `make(chan T, n)` for `n ≥ 0`. -/
def Chan.make {α : Type} (n : Nat) : Chan α := { cap := n, buf := [] }

/-- The send `c <- x`, alone in a `select` without `default`: it completes
only while the buffer has room (no receiver is waiting in the model). -/
def Chan.send {α : Type} (c : Chan α) (x : α) : Option (Chan α) :=
  if c.buf.length < c.cap then some { c with buf := c.buf ++ [x] } else none

/-- The loop `for x := range src { select { case dst <- x: } }` over a
closed channel whose queued entries are `src`. -/
def Chan.drainInto {α : Type} : List α → Chan α → Option (Chan α)
  | [], dst => some dst
  | x :: xs, dst =>
    match dst.send x with
    | some dst1 => Chan.drainInto xs dst1
    | none => none

/-! ## Queue (queue.go) -/

/-- The struct `Queue` (the mutex is not modelled). -/
structure Queue where
  Jobs : List JobPtr
  errors : Chan JobError
  results : Chan JobResult
  suspended : Bool
  deriving DecidableEq, Repr

/-- The constructor `NewQueue`. -/
def NewQueue : Queue :=
  { Jobs := [], errors := Chan.make 10, results := Chan.make 10, suspended := false }

/-- The search loop of `Add`: whether `job` is one of the entries. -/
def Queue.Add.present (job : JobPtr) : List JobPtr → Bool
  | [] => false
  | j :: js => if job = j then true else Queue.Add.present job js

/-- The method `Add`. -/
def Queue.Add (q : Queue) (job : JobPtr) : Queue :=
  if Queue.Add.present job q.Jobs then q else { q with Jobs := q.Jobs ++ [job] }

/-- The method `MaxBufferedErrors`; `none` when the copy loop blocks. -/
def Queue.MaxBufferedErrors (q : Queue) (n : Nat) : Option Queue :=
  let errors : Chan JobError := Chan.make n
  match Chan.drainInto q.errors.buf errors with
  | some errors1 => some { q with errors := errors1 }
  | none => none

/-- The method `MaxBufferedResults`; `none` when the copy loop blocks. -/
def Queue.MaxBufferedResults (q : Queue) (n : Nat) : Option Queue :=
  let results : Chan JobResult := Chan.make n
  match Chan.drainInto q.results.buf results with
  | some results1 => some { q with results := results1 }
  | none => none

/-- The method `Resume`. -/
def Queue.Resume (q : Queue) : Queue := { q with suspended := false }

/-- The method `Suspend`. -/
def Queue.Suspend (q : Queue) : Queue := { q with suspended := true }

/-- The method `Suspended`. -/
def Queue.Suspended (q : Queue) : Bool := q.suspended

/-- The `range q.Jobs` loop of `Run`: the jobs for which a goroutine is
launched, in the order of the launches.  The job at position `i` of the list is
tested with the clock readings `clk (2 * i)` and `clk (2 * i + 1)`. -/
def Queue.Run.loop (h : Heap) (clk : Nat → Int) : Nat → List JobPtr → List JobPtr
  | _, [] => []
  | i, job :: rest =>
    if (h job).due (clk (2 * i)) (clk (2 * i + 1)) then
      job :: Queue.Run.loop h clk (i + 1) rest
    else
      Queue.Run.loop h clk (i + 1) rest

/-- The method `Run` up to its return: the queue it leaves and the jobs it
has launched a goroutine for. -/
def Queue.Run (q : Queue) (h : Heap) (clk : Nat → Int) : Queue × List JobPtr :=
  if !q.suspended then (q, Queue.Run.loop h clk 0 q.Jobs) else (q, [])

/-- The goroutine `Run` launches for `job`, executed as one step; `now` is the
clock reading of `job.Run()`.  `none` when a send finds its buffer full. -/
def Queue.Run.worker (q : Queue) (h : Heap) (job : JobPtr) (now : Int) :
    Option (Queue × Heap) :=
  match (h job).Run now with
  | (j1, res, err) =>
    let h1 := Function.update h job j1
    let afterResults : Option Queue :=
      if res.length > 0 then
        (q.results.send { Name := j1.Name, Results := res }).map
          (fun c => { q with results := c })
      else some q
    match afterResults with
    | none => none
    | some q1 =>
      if err ≠ none then
        (q1.errors.send { Name := j1.Name, Error := err }).map
          (fun c => ({ q1 with errors := c }, h1))
      else some (q1, h1)

/-- The goroutines of one run cycle, each executed as one step, in the order
and at the clock readings listed. -/
def Queue.Run.workers (q : Queue) (h : Heap) : List (JobPtr × Int) → Option (Queue × Heap)
  | [] => some (q, h)
  | (job, now) :: rest =>
    match Queue.Run.worker q h job now with
    | some (q1, h1) => Queue.Run.workers q1 h1 rest
    | none => none

/-! ## Scheduler (scheduler.go) -/

/-- Addresses of queues: the registry of a scheduler stores `*Queue`, and the
same queue may be registered under several names. -/
abbrev QueuePtr := Nat

/-- The queue records, by address. -/
abbrev QueueHeap := QueuePtr → Queue

/-- The struct `Scheduler` (the mutex is not modelled).  The map `Queues` is
a list of entries with distinct keys; an entry is `none` for a nil `*Queue`.
`loops` is not a field of the Go struct: it counts the driver goroutines
launched by `Start` that have not yet left their `for s.running` loop. -/
structure Scheduler where
  Queues : List (String × Option QueuePtr)
  errors : Chan JobError
  results : Chan JobResult
  running : Bool
  loops : Nat
  deriving DecidableEq, Repr

/-- The constructor `NewScheduler`; the queue it allocates for the key
"default" is taken to sit at address 0. -/
def NewScheduler : Scheduler :=
  { Queues := [("default", some 0)], errors := Chan.make 10,
    results := Chan.make 10, running := false, loops := 0 }

/-- The queue records right after `NewScheduler`: a new queue at the address
of the default queue (what the other addresses hold is immaterial). -/
def NewScheduler.queues : QueueHeap := fun _ => NewQueue

/-- The method `Running`. -/
def Scheduler.Running (s : Scheduler) : Bool := s.running

/-- The method `Start`: the scheduler it leaves and the error it returns. -/
def Scheduler.Start (s : Scheduler) : Scheduler × Option Error :=
  if s.Running then
    (s, some Error.alreadyRunning)
  else
    ({ s with running := true, loops := s.loops + 1 }, none)

/-- The method `Stop`. -/
def Scheduler.Stop (s : Scheduler) : Scheduler := { s with running := false }

/-- One evaluation of the condition of `for s.running` by a driver goroutine:
with the flag set the goroutine enters the body (which launches the queue
goroutines and sleeps) and stays in the loop, with the flag cleared it leaves
the loop and ends. -/
def Scheduler.Start.loopCheck (s : Scheduler) : Scheduler :=
  if s.running then s else { s with loops := s.loops - 1 }

/-- What can happen to a scheduler: a call of `Start`, a call of `Stop`, or a
driver goroutine reaching its loop condition. -/
inductive Event where
  | start
  | stop
  | loopCheck
  deriving DecidableEq, Repr

/-- The effect of one event; a loop check needs a driver goroutine to make it. -/
def Scheduler.step (s : Scheduler) : Event → Scheduler
  | Event.start => (s.Start).1
  | Event.stop => s.Stop
  | Event.loopCheck => if 0 < s.loops then Scheduler.Start.loopCheck s else s

/-- The scheduler after a sequence of events. -/
def Scheduler.exec (s : Scheduler) (es : List Event) : Scheduler :=
  es.foldl Scheduler.step s

/-- The states reachable from `NewScheduler`. -/
def Scheduler.Reachable (s : Scheduler) : Prop :=
  ∃ es : List Event, NewScheduler.exec es = s

/-- The faults of the runtime that the methods of the scheduler can raise. -/
inductive Fault where
  | nilDereference
  deriving DecidableEq, Repr

/-- The entry of a map under the key `name`, if there is one. -/
def Scheduler.Queues.find (name : String) :
    List (String × Option QueuePtr) → Option (Option QueuePtr)
  | [] => none
  | (key, queue) :: rest =>
    if key = name then some queue else Scheduler.Queues.find name rest

/-- The index expression `s.Queues[name]`: nil for a key that is not in the
map, as for a key bound to nil. -/
def Scheduler.Queues.index (s : Scheduler) (name : String) : Option QueuePtr :=
  match Scheduler.Queues.find name s.Queues with
  | some queue => queue
  | none => none

/-- The method `AddToQueue`: the scheduler and the queue records it leaves,
and the fault it raises.  `Add` on a nil `*Queue` dereferences the receiver
when it locks the mutex of the queue, before any write. -/
def Scheduler.AddToQueue (s : Scheduler) (qs : QueueHeap) (queue : String) (job : JobPtr) :
    Scheduler × QueueHeap × Option Fault :=
  match Scheduler.Queues.index s queue with
  | none => (s, qs, some Fault.nilDereference)
  | some p => (s, Function.update qs p ((qs p).Add job), none)

/-- The method `Add`. -/
def Scheduler.Add (s : Scheduler) (qs : QueueHeap) (job : JobPtr) :
    Scheduler × QueueHeap × Option Fault :=
  s.AddToQueue qs "default" job

/-- The method `Queue`: the assignment `s.Queues[name] = queue`, which inserts
the key or overwrites its entry. -/
def Scheduler.Queue (s : Scheduler) (name : String) (queue : Option QueuePtr) : Scheduler :=
  { s with Queues := (name, queue) :: s.Queues.filter (fun entry => decide (entry.1 ≠ name)) }

/-- One run cycle of a queue and what came before it.  `tick` is the instant
of the cycle (the clock readings of `Queue.Run`), `done` the clock reading of
`job.Run()` in the goroutines the cycle launches.  `suspended` is the flag of
the queue at the cycle, as the calls of `Suspend` and `Resume` made since the
last cycle have left it.  `drained` tells whether the consumer of the two
buffers has received every queued entry since the last cycle (the drain
goroutine of the scheduler receives until both buffers are empty). -/
structure Cycle where
  tick : Int
  done : Int
  suspended : Bool
  drained : Bool
  deriving DecidableEq, Repr

/-- The instants of the cycles do not decrease from `lo` on, and each
execution completes (at `done`) before the next cycle. -/
def Cycle.ordered (lo : Int) : List Cycle → Bool
  | [] => true
  | c :: cs => decide (lo ≤ c.tick) && decide (c.tick ≤ c.done) && Cycle.ordered c.done cs

/-- The two tests `Queue.Run` makes before it launches a goroutine for a job
at a cycle: the guard `!q.suspended`, then the test of the loop. -/
def Job.launched (j : Job) (c : Cycle) : Bool :=
  !c.suspended && j.due c.tick c.tick

/-- A job of a queue through a sequence of run cycles of that queue, each
execution completing before the next cycle: the job at the end and the number
of times it was executed.  This is the part of `Queue.cycles` that concerns
one job (`Queue.cycles_job`). -/
def Job.cycles (j : Job) : List Cycle → Job × Nat
  | [] => (j, 0)
  | c :: cs =>
    if j.launched c then
      let r := Job.cycles (j.Run c.done).1 cs
      (r.1, r.2 + 1)
    else
      Job.cycles j cs

/-- The consumer side of the two buffers: every queued entry is received. -/
def Queue.drained (q : Queue) : Queue :=
  { q with errors := { q.errors with buf := [] }, results := { q.results with buf := [] } }

/-- A queue through a sequence of run cycles.  At each cycle the consumer and
the calls of `Suspend` and `Resume` leave the queue as the cycle says, `Run`
launches its goroutines with every clock reading at `tick`, and the goroutines
complete, in the order of their launch, at `done`, before the next cycle.  The
result is the queue and the job records at the end and the number of
goroutines launched for `job`; it is `none` when a goroutine blocks on a full
buffer, so that its execution does not complete. -/
def Queue.cycles (q : Queue) (h : Heap) (job : JobPtr) :
    List Cycle → Option (Queue × Heap × Nat)
  | [] => some (q, h, 0)
  | c :: cs =>
    let q0 := if c.drained then q.drained else q
    let q1 := if c.suspended then q0.Suspend else q0.Resume
    let launches := (q1.Run h (fun _ => c.tick)).2
    match Queue.Run.workers q1 h (launches.map (fun p => (p, c.done))) with
    | none => none
    | some (q2, h2) =>
      match Queue.cycles q2 h2 job cs with
      | none => none
      | some (q3, h3, n) => some (q3, h3, n + launches.count job)

/-! ## Fixtures: the functions of the package tests -/

/-- A function without parameters that returns `rs`, as the string-returning
function of the tests. -/
def Func.returning (rs : List Value) : Func :=
  { check := fun args =>
      if args.isEmpty then none else some "reflect: Call with too many input arguments"
    body := fun _ => CallOutcome.returned rs }

/-- A function without parameters that panics with `e`, as the panicking
function of the tests. -/
def Func.panicking (e : PanicValue) : Func :=
  { check := fun args =>
      if args.isEmpty then none else some "reflect: Call with too many input arguments"
    body := fun _ => CallOutcome.panicked e }

/-- A never-run job whose trigger is anchored 10ns before the zero time, with
interval 1ns and limit 1. -/
def Job.anchoredBeforeZero : Job :=
  { Name := "test", function := Func.returning [], args := [],
    trigger := ((NewTrigger 0).Every 1 |>.Limit 1 |>.From (-10)), last := Time.zero }

/-- A never-run job scheduled every 15ns from instant 1000, in the manner of
`TestJob_NextRun`. -/
def Job.everyFifteen : Job :=
  { Name := "test", function := Func.returning [], args := [],
    trigger := (NewTrigger 1000).Every 15, last := Time.zero }

/-- A never-run job scheduled every 1ns from the zero time, at most once, in
the manner of the jobs of `TestQueue_Run`. -/
def Job.onceOnly : Job :=
  { Name := "test", function := Func.returning [Value.str "test"], args := [],
    trigger := ((NewTrigger 0).Every 1 |>.Limit 1), last := Time.zero }

/-- The job `Job.onceOnly` with a function that panics, as the second job of
`TestQueue_Run`. -/
def Job.panicsOnce : Job :=
  { Job.onceOnly with function := Func.panicking (PanicValue.value (Value.str "test")) }

/-- The heap of `TestQueue_Run`: the job at address 1 returns a value, every
other job panics. -/
def Heap.tests : Heap := fun job => if job = 1 then Job.onceOnly else Job.panicsOnce

/-- A new queue whose error and result buffers (capacity 10) hold two
entries each. -/
def Queue.twoBuffered : Queue :=
  { NewQueue with
    errors := { cap := 10, buf := [⟨"a", none⟩, ⟨"b", none⟩] }
    results := { cap := 10, buf := [⟨"a", []⟩, ⟨"b", []⟩] } }

/-- A job that ran successfully at instant 100 and was then scheduled from the
earlier anchor 50, with interval 1ns and limit 1. -/
def Job.anchoredBeforeLastRun : Job :=
  { Name := "test", function := Func.returning [], args := [],
    trigger := ((NewTrigger 100).Every 1 |>.Limit 1 |>.From 50), last := 100 }

/-- A stand-in for `time.ParseDuration` on three strings: "15ns" and "-5ns"
parse, everything else is rejected. -/
def Trigger.Every.parseTest (str : String) : Except String Int :=
  if str = "15ns" then Except.ok 15
  else if str = "-5ns" then Except.ok (-5)
  else Except.error "time: invalid duration"

/-- A never-run job whose trigger has interval 3ns, anchor 10 and no limit. -/
def Job.everyThree : Job :=
  { Name := "test", function := Func.returning [], args := [],
    trigger := ((NewTrigger 10).Every 3), last := Time.zero }

/-- A new scheduler on which the key "x" has been bound to a nil queue. -/
def Scheduler.withNilQueue : Scheduler := NewScheduler.Queue "x" none

/-! ## Properties of `Trigger.Next` -/

theorem Trigger.Next.loop_unfold (I : Int) (hpos : 0 < I) (L now next c : Int) :
    Trigger.Next.loop I hpos L now next c =
      if next < now then
        (if 0 < L ∧ L ≤ c + 1 then next
         else Trigger.Next.loop I hpos L now (next + I) (c + 1))
      else next := by
  rw [Trigger.Next.loop.eq_1]
  simp

/-- The loop returns `next + m * I` after `m` advances: either it stopped
because the candidate caught up with `now` (the limit was not reached on the
way), or the counter reached the limit on a candidate still before `now`. -/
theorem Trigger.Next.loop_spec (I : Int) (hpos : 0 < I) (L now : Int) :
    ∀ (n : Nat) (next c : Int), (now - next).toNat ≤ n → (L ≤ 0 ∨ c < L) →
      ∃ m : Int, 0 ≤ m ∧ (∀ i : Int, 0 ≤ i → i < m → next + i * I < now) ∧
        Trigger.Next.loop I hpos L now next c = next + m * I ∧
        ((now ≤ next + m * I ∧ (L ≤ 0 ∨ c + m < L)) ∨
          (0 < L ∧ c + m + 1 = L ∧ next + m * I < now)) := by
  intro n
  induction n with
  | zero =>
    intro next c hn _
    refine ⟨0, le_refl 0, ?_, ?_, ?_⟩
    · intro i h0 h1; omega
    · rw [Trigger.Next.loop_unfold]
      have : ¬ next < now := by omega
      simp [this]
    · left; constructor
      · simp; omega
      · simpa using (by assumption : L ≤ 0 ∨ c < L)
  | succ n ih =>
    intro next c hn hc
    rw [Trigger.Next.loop_unfold]
    by_cases hlt : next < now
    · by_cases hlim : 0 < L ∧ L ≤ c + 1
      · refine ⟨0, le_refl 0, ?_, ?_, ?_⟩
        · intro i h0 h1; omega
        · simp [hlt, hlim]
        · right
          refine ⟨hlim.1, ?_, ?_⟩
          · omega
          · simpa using hlt
      · have hc1 : L ≤ 0 ∨ c + 1 < L := by
          by_contra hcon
          apply hlim
          omega
        obtain ⟨m, hm0, hbefore, heq, hcase⟩ := ih (next + I) (c + 1) (by omega) hc1
        refine ⟨m + 1, by omega, ?_, ?_, ?_⟩
        · intro i h0 h1
          by_cases hi : i = 0
          · subst hi; simpa using hlt
          · have := hbefore (i - 1) (by omega) (by omega)
            have e : next + I + (i - 1) * I = next + i * I := by ring
            rw [e] at this
            exact this
        · simp only [hlt, hlim, if_true, if_false]
          rw [heq]; ring
        · have e : next + I + m * I = next + (m + 1) * I := by ring
          rw [← e]
          rcases hcase with ⟨h1, h2⟩ | ⟨h1, h2, h3⟩
          · left; exact ⟨h1, by omega⟩
          · right; exact ⟨h1, by omega, h3⟩
    · refine ⟨0, le_refl 0, ?_, ?_, ?_⟩
      · intro i h0 h1; omega
      · simp [hlt]
      · left; constructor
        · simp; omega
        · simpa using hc

/-- For a positive interval some occurrence `start + k * interval`, `k ≥ 1`,
is not before `now`, and there is a first one. -/
theorem Trigger.exists_first_occurrence (a I now : Int) (hI : 0 < I) :
    ∃ k : Int, 1 ≤ k ∧ now ≤ a + k * I ∧
      ∀ k2 : Int, 1 ≤ k2 → now ≤ a + k2 * I → k ≤ k2 := by
  have h1 : (now - a + I - 1) / I * I ≤ now - a + I - 1 := Int.ediv_mul_le _ (ne_of_gt hI)
  have h2 : now - a + I - 1 < ((now - a + I - 1) / I + 1) * I :=
    Int.lt_ediv_add_one_mul_self _ hI
  generalize (now - a + I - 1) / I = q at h1 h2
  have h3 : (q + 1) * I = q * I + I := by ring
  by_cases hq : 1 ≤ q
  · refine ⟨q, hq, by omega, ?_⟩
    intro k2 hk2 hnow
    by_contra hcon
    have hle : k2 ≤ q - 1 := by omega
    have hmul : k2 * I ≤ (q - 1) * I := mul_le_mul_of_nonneg_right hle (le_of_lt hI)
    have h4 : (q - 1) * I = q * I - I := by ring
    omega
  · refine ⟨1, le_refl 1, ?_, fun k2 hk2 _ => hk2⟩
    have hle : q ≤ 0 := by omega
    have hmul : q * I ≤ 0 * I := mul_le_mul_of_nonneg_right hle (le_of_lt hI)
    omega

/-- The shape of the result of `Next` for a positive interval. -/
theorem Trigger.Next_cases (t : Trigger) (now : Int) (hI : 0 < t.interval) :
    ∃ k : Int, 1 ≤ k ∧
      (∀ i : Int, 1 ≤ i → i < k → t.start + i * t.interval < now) ∧
      t.Next now = t.start + k * t.interval ∧
      ((now ≤ t.start + k * t.interval ∧ (t.limit ≤ 0 ∨ k ≤ t.limit)) ∨
        (0 < t.limit ∧ k = t.limit ∧ t.start + k * t.interval < now)) := by
  have hne : ¬ t.interval = 0 := ne_of_gt hI
  obtain ⟨m, hm0, hbefore, heq, hcase⟩ :=
    Trigger.Next.loop_spec t.interval hI t.limit now
      (now - (t.start + t.interval)).toNat (t.start + t.interval) 0 (le_refl _)
      (by omega)
  have e : t.start + t.interval + m * t.interval = t.start + (m + 1) * t.interval := by ring
  refine ⟨m + 1, by omega, ?_, ?_, ?_⟩
  · intro i h1 h2
    have := hbefore (i - 1) (by omega) (by omega)
    have e2 : t.start + t.interval + (i - 1) * t.interval = t.start + i * t.interval := by
      ring
    rw [e2] at this
    exact this
  · simp only [Trigger.Next, hne, dite_false, Time.Add]
    rw [heq, e]
  · rw [← e]
    rcases hcase with ⟨h1, h2⟩ | ⟨h1, h2, h3⟩
    · left; exact ⟨h1, by omega⟩
    · right; exact ⟨h1, by omega, h3⟩

/-- With a positive interval `Next` is never before the first occurrence. -/
theorem Trigger.Next_ge_first (t : Trigger) (now : Int) (hI : 0 < t.interval) :
    t.start + t.interval ≤ t.Next now := by
  obtain ⟨k, hk, _, heq, _⟩ := Trigger.Next_cases t now hI
  rw [heq]
  have : 1 * t.interval ≤ k * t.interval := mul_le_mul_of_nonneg_right hk (le_of_lt hI)
  omega

/-- With a positive interval and a positive limit `Next` is never after the
last occurrence the limit allows. -/
theorem Trigger.Next_le_last (t : Trigger) (now : Int) (hI : 0 < t.interval)
    (hL : 0 < t.limit) : t.Next now ≤ t.start + t.limit * t.interval := by
  obtain ⟨k, _, _, heq, hcase⟩ := Trigger.Next_cases t now hI
  rw [heq]
  have hk : k ≤ t.limit := by
    rcases hcase with ⟨_, h2⟩ | ⟨_, h2, _⟩ <;> omega
  have : k * t.interval ≤ t.limit * t.interval :=
    mul_le_mul_of_nonneg_right hk (le_of_lt hI)
  omega

/-- With a positive interval and limit 1 the result of `Next` is the first
occurrence, whatever the clock reads. -/
theorem Trigger.Next_limit_one (t : Trigger) (now : Int) (hI : 0 < t.interval)
    (hL : t.limit = 1) : t.Next now = t.start + t.interval := by
  have h1 := Trigger.Next_ge_first t now hI
  have h2 := Trigger.Next_le_last t now hI (by omega)
  rw [hL] at h2
  omega

/-- Claim C1.  For a trigger with positive interval and limit `L ≥ 0`,
`Next` at `now` is `start + k * interval` for the least `k ≥ 1` whose
occurrence is not before `now`, except that for `0 < L < k` it is
`start + L * interval`; with limit 0 it is that first occurrence at or after
`now`, and with limit 1 it is always `start + interval`. -/
theorem Trigger.Next_spec (t : Trigger) (now : Int) (hI : 0 < t.interval)
    (_hL : 0 ≤ t.limit) :
    ∃ k : Int, 1 ≤ k ∧ now ≤ t.start + k * t.interval ∧
      (∀ k2 : Int, 1 ≤ k2 → now ≤ t.start + k2 * t.interval → k ≤ k2) ∧
      t.Next now =
        (if 0 < t.limit ∧ t.limit < k then t.start + t.limit * t.interval
         else t.start + k * t.interval) ∧
      (t.limit = 0 → t.Next now = t.start + k * t.interval ∧ now ≤ t.Next now) ∧
      (t.limit = 1 → t.Next now = t.start + t.interval) := by
  obtain ⟨k, hk, hbefore, heq, hcase⟩ := Trigger.Next_cases t now hI
  rcases hcase with ⟨h1, h2⟩ | ⟨h1, h2, h3⟩
  · have hno : ¬ (0 < t.limit ∧ t.limit < k) := by omega
    refine ⟨k, hk, h1, ?_, ?_, ?_, fun h => Trigger.Next_limit_one t now hI h⟩
    · intro k2 hk2 hnow
      by_contra hcon
      have := hbefore k2 hk2 (by omega)
      omega
    · rw [if_neg hno]; exact heq
    · intro _; exact ⟨heq, by rw [heq]; exact h1⟩
  · obtain ⟨k0, hk0, hnow0, hleast⟩ :=
      Trigger.exists_first_occurrence t.start t.interval now hI
    have hlt : t.limit < k0 := by
      by_contra hcon
      have hle : k0 ≤ k := by omega
      have : k0 * t.interval ≤ k * t.interval :=
        mul_le_mul_of_nonneg_right hle (le_of_lt hI)
      omega
    refine ⟨k0, hk0, hnow0, hleast, ?_, ?_, fun h => Trigger.Next_limit_one t now hI h⟩
    · rw [if_pos ⟨h1, hlt⟩, heq, h2]
    · intro h0; omega

/-- Claim C1 at a trigger anchored at 10 with interval 3 and no limit. -/
theorem Trigger.Next_spec_witness :
    ∃ k : Int, 1 ≤ k ∧ (20 : Int) ≤ 10 + k * 3 ∧
      (∀ k2 : Int, 1 ≤ k2 → (20 : Int) ≤ 10 + k2 * 3 → k ≤ k2) ∧
      Trigger.Next ⟨3, 10, 0, by decide⟩ 20 =
        (if (0 : Int) < 0 ∧ (0 : Int) < k then 10 + 0 * 3 else 10 + k * 3) ∧
      ((0 : Int) = 0 → Trigger.Next ⟨3, 10, 0, by decide⟩ 20 = 10 + k * 3 ∧
        20 ≤ Trigger.Next ⟨3, 10, 0, by decide⟩ 20) ∧
      ((0 : Int) = 1 → Trigger.Next ⟨3, 10, 0, by decide⟩ 20 = 10 + 3) :=
  Trigger.Next_spec ⟨3, 10, 0, by decide⟩ 20 (by decide) (by decide)

/-! ## Properties of `Job` -/

theorem Job.NextRun_eq (j : Job) (now : Int) :
    j.NextRun now = if j.last < j.trigger.Next now then j.trigger.Next now else Time.zero := by
  simp [Job.NextRun]

/-- The result list `Run` builds is the list of returned values, in order. -/
theorem Job.Run.collect_eq (rs : List Value) :
    rs.foldl (fun result res => result ++ [res]) [] = rs := by
  have h : ∀ (xs acc : List Value),
      xs.foldl (fun result res => result ++ [res]) acc = acc ++ xs := by
    intro xs
    induction xs with
    | nil => intro acc; simp
    | cons x xs ih => intro acc; simp [ih]
  simpa using h rs []

theorem Job.Run_returned (j : Job) (now : Int) (rs : List Value)
    (h : j.function.Call j.args = CallOutcome.returned rs) :
    j.Run now = ({ j with last := now }, rs, none) := by
  simp only [Job.Run, h, Job.Run.collect_eq]

theorem Job.Run_panicked (j : Job) (now : Int) (e : PanicValue)
    (h : j.function.Call j.args = CallOutcome.panicked e) :
    ∃ err : Error, j.Run now = (j, [], some err) := by
  cases e with
  | error msg => exact ⟨Error.jobPanickedWithError msg, by simp only [Job.Run, h]⟩
  | value v => exact ⟨Error.jobPanickedWithValue v, by simp only [Job.Run, h]⟩

/-- Claim C2 as stated fails: the never-run job `Job.anchoredBeforeZero` has a
trigger with positive interval, and its `NextRun` is the zero time. -/
theorem Job.NextRun_never_run_counterexample :
    0 < Job.anchoredBeforeZero.trigger.interval ∧
      Job.anchoredBeforeZero.last = Time.zero ∧
      Job.anchoredBeforeZero.trigger.Next 100 = -9 ∧
      Job.anchoredBeforeZero.NextRun 100 = Time.zero := by
  have hI : 0 < Job.anchoredBeforeZero.trigger.interval := by decide
  have hN : Job.anchoredBeforeZero.trigger.Next 100 = -9 := by
    rw [Trigger.Next_limit_one _ 100 hI (by decide)]
    decide
  refine ⟨hI, rfl, hN, ?_⟩
  rw [Job.NextRun_eq, hN]
  decide

/-- Claim C2, amended.  `NextRun` is the value of `Trigger.Next` when that
value is strictly after the watermark `last`, and the zero time otherwise; a
never-run job whose trigger has a positive interval and an anchor not before
the zero time has a non-zero `NextRun`. -/
theorem Job.NextRun_spec (j : Job) (now : Int) :
    (j.last < j.trigger.Next now → j.NextRun now = j.trigger.Next now) ∧
      (¬ j.last < j.trigger.Next now → j.NextRun now = Time.zero) ∧
      (0 < j.trigger.interval → j.last = Time.zero → Time.zero ≤ j.trigger.start →
        j.NextRun now ≠ Time.zero ∧ j.NextRun now = j.trigger.Next now) := by
  refine ⟨fun h => ?_, fun h => ?_, fun hI hlast hstart => ?_⟩
  · rw [Job.NextRun_eq, if_pos h]
  · rw [Job.NextRun_eq, if_neg h]
  · have hge := Trigger.Next_ge_first j.trigger now hI
    simp only [Time.zero] at hlast hstart
    have hlt : j.last < j.trigger.Next now := by omega
    rw [Job.NextRun_eq, if_pos hlt]
    refine ⟨?_, rfl⟩
    simp only [Time.zero]
    omega

/-- Claim C2, amended, at a never-run job scheduled every 15 units from
instant 1000 and asked at instant 1001. -/
theorem Job.NextRun_spec_witness :
    Job.everyFifteen.NextRun 1001 ≠ Time.zero ∧
      Job.everyFifteen.NextRun 1001 = Job.everyFifteen.trigger.Next 1001 :=
  (Job.NextRun_spec Job.everyFifteen 1001).2.2 (by decide) rfl (by decide)

/-! ## A job through repeated run cycles -/

theorem Job.due_iff (j : Job) (t1 t2 : Int) :
    j.due t1 t2 = true ↔
      j.last < j.trigger.Next t1 ∧ j.trigger.Next t1 ≠ 0 ∧ j.trigger.Next t1 ≤ t2 := by
  by_cases h : j.last < j.trigger.Next t1
  · simp [Job.due, Job.NextRun, h]
  · simp [Job.due, Job.NextRun, h]

theorem Job.due_false_of_consumed (j : Job) (t1 t2 : Int)
    (h : j.trigger.Next t1 ≤ j.last) : j.due t1 t2 = false := by
  cases hd : j.due t1 t2 with
  | false => rfl
  | true =>
    have := (Job.due_iff j t1 t2).mp hd
    omega

theorem Cycle.ordered_mem (cs : List Cycle) :
    ∀ lo : Int, Cycle.ordered lo cs = true → ∀ c ∈ cs, c.tick ≤ c.done := by
  induction cs with
  | nil => intro lo _ c hc; simp at hc
  | cons x xs ih =>
    intro lo h c hc
    simp only [Cycle.ordered, Bool.and_eq_true, decide_eq_true_eq] at h
    rcases List.mem_cons.mp hc with rfl | hmem
    · exact h.1.2
    · exact ih x.done h.2 c hmem

/-- Budget argument: once the watermark has passed the occurrence number `m`,
at most `limit - m` executions remain. -/
theorem Job.cycles_budget (cs : List Cycle) :
    ∀ (j : Job) (m : Int), 0 < j.trigger.interval → 0 < j.trigger.limit →
      (∃ rs, j.function.Call j.args = CallOutcome.returned rs) →
      (∀ c ∈ cs, c.tick ≤ c.done) → 0 ≤ m → m ≤ j.trigger.limit →
      (m = 0 ∨ j.trigger.start + m * j.trigger.interval ≤ j.last) →
      ((j.cycles cs).2 : Int) + m ≤ j.trigger.limit := by
  induction cs with
  | nil => intro j m _ _ _ _ _ hm _; simpa [Job.cycles] using hm
  | cons c cs ih =>
    intro j m hI hL hok hdone hm0 hmL hm
    have hcs : ∀ x ∈ cs, x.tick ≤ x.done := fun x hx => hdone x (List.mem_cons_of_mem c hx)
    by_cases hd : j.launched c = true
    · obtain ⟨rs, hrs⟩ := hok
      have hrun : (j.Run c.done).1 = { j with last := c.done } := by
        rw [Job.Run_returned j c.done rs hrs]
      have hdue : j.due c.tick c.tick = true := by
        simp only [Job.launched, Bool.and_eq_true] at hd
        exact hd.2
      obtain ⟨hlast, _, hle⟩ := (Job.due_iff j c.tick c.tick).mp hdue
      obtain ⟨k, hk1, _, heq, hcase⟩ := Trigger.Next_cases j.trigger c.tick hI
      have hkL : k ≤ j.trigger.limit := by
        rcases hcase with ⟨_, h2⟩ | ⟨_, h2, _⟩ <;> omega
      have hcd : c.tick ≤ c.done := hdone c (List.mem_cons_self c cs)
      have hmk : m < k := by
        rcases hm with h0 | hpast
        · omega
        · by_contra hcon
          have hle2 : k ≤ m := by omega
          have : k * j.trigger.interval ≤ m * j.trigger.interval :=
            mul_le_mul_of_nonneg_right hle2 (le_of_lt hI)
          omega
      have hih := ih { j with last := c.done } k hI hL ⟨rs, hrs⟩ hcs (by omega) hkL
        (Or.inr (by simp only; omega))
      simp only [Job.cycles, hd, if_true, hrun, Nat.cast_add, Nat.cast_one]
      simp only at hih
      omega
    · have hih := ih j m hI hL hok hcs hm0 hmL hm
      simp only [Job.cycles, hd]
      simpa using hih

/-- A job whose watermark has reached the last occurrence its limit allows is
never due, and run cycles leave it as it is. -/
theorem Job.cycles_exhausted (j : Job) (hI : 0 < j.trigger.interval)
    (hL : 0 < j.trigger.limit)
    (hlast : j.trigger.start + j.trigger.limit * j.trigger.interval ≤ j.last) :
    (∀ t1 t2 : Int, j.due t1 t2 = false) ∧ ∀ cs : List Cycle, j.cycles cs = (j, 0) := by
  have hdue : ∀ t1 t2 : Int, j.due t1 t2 = false := by
    intro t1 t2
    apply Job.due_false_of_consumed
    have := Trigger.Next_le_last j.trigger t1 hI hL
    omega
  refine ⟨hdue, ?_⟩
  intro cs
  induction cs with
  | nil => rfl
  | cons c cs ih => simp [Job.cycles, Job.launched, hdue, ih]

/-- Cycles strictly before the first occurrence, and cycles of the suspended
queue, leave a limit-1 job alone. -/
theorem Job.cycles_early (j : Job) (hI : 0 < j.trigger.interval)
    (hL : j.trigger.limit = 1) (pre : List Cycle)
    (hpre : ∀ x ∈ pre, x.tick < j.trigger.start + j.trigger.interval ∨ x.suspended = true) :
    j.cycles pre = (j, 0) := by
  induction pre with
  | nil => rfl
  | cons c cs ih =>
    have hc := hpre c (List.mem_cons_self c cs)
    have hd : j.launched c = false := by
      cases hd : j.launched c with
      | false => rfl
      | true =>
        simp only [Job.launched, Bool.and_eq_true] at hd
        have := (Job.due_iff j c.tick c.tick).mp hd.2
        rw [Trigger.Next_limit_one j.trigger c.tick hI hL] at this
        rcases hc with hc | hc
        · omega
        · have h1 := hd.1
          rw [hc] at h1
          exact absurd h1 (by decide)
    simp only [Job.cycles, hd]
    exact ih (fun x hx => hpre x (List.mem_cons_of_mem c hx))

theorem Job.cycles_append (j : Job) (xs ys : List Cycle) :
    j.cycles (xs ++ ys) =
      (((j.cycles xs).1.cycles ys).1, (j.cycles xs).2 + ((j.cycles xs).1.cycles ys).2) := by
  induction xs generalizing j with
  | nil => simp [Job.cycles]
  | cons c cs ih =>
    by_cases hd : j.launched c = true
    · simp only [List.cons_append, Job.cycles, hd, if_true, List.append_eq, ih]
      refine Prod.ext rfl ?_
      simp only
      omega
    · simp only [List.cons_append, Job.cycles, hd, List.append_eq]
      exact ih j

theorem Job.Run_trigger (j : Job) (now : Int) : (j.Run now).1.trigger = j.trigger := by
  unfold Job.Run
  split <;> rfl

theorem Job.cycles_trigger (cs : List Cycle) :
    ∀ j : Job, (j.cycles cs).1.trigger = j.trigger := by
  induction cs with
  | nil => intro j; rfl
  | cons c cs ih =>
    intro j
    by_cases hd : j.launched c = true
    · simp only [Job.cycles, hd, if_true, ih, Job.Run_trigger]
    · simp only [Job.cycles, hd]
      exact ih j

/-- The job-level form of the statement on run cycles: at most `limit`
executions; no execution once the watermark has reached the last occurrence;
for limit 1, one execution, at the first cycle of the queue, not suspended, at
or after the first occurrence. -/
theorem Job.cycles_limit (j : Job) (cs : List Cycle)
    (hI : 0 < j.trigger.interval) (hL : 0 < j.trigger.limit)
    (hok : ∃ rs, j.function.Call j.args = CallOutcome.returned rs)
    (hdone : ∀ c ∈ cs, c.tick ≤ c.done) :
    ((j.cycles cs).2 : Int) ≤ j.trigger.limit ∧
      (∀ pre post : List Cycle, cs = pre ++ post →
        j.trigger.start + j.trigger.limit * j.trigger.interval ≤ (j.cycles pre).1.last →
        (∀ t1 t2 : Int, (j.cycles pre).1.due t1 t2 = false) ∧
          (j.cycles cs).2 = (j.cycles pre).2) ∧
      (j.trigger.limit = 1 → j.last < j.trigger.start + j.trigger.interval →
        j.trigger.start + j.trigger.interval ≠ Time.zero →
        ∀ (pre : List Cycle) (c : Cycle) (post : List Cycle), cs = pre ++ c :: post →
          (∀ x ∈ pre, x.tick < j.trigger.start + j.trigger.interval ∨ x.suspended = true) →
          j.trigger.start + j.trigger.interval ≤ c.tick → c.suspended = false →
          (j.cycles pre).2 = 0 ∧ (j.cycles (pre ++ [c])).2 = 1 ∧ (j.cycles cs).2 = 1) := by
  refine ⟨?_, ?_, ?_⟩
  · simpa using Job.cycles_budget cs j 0 hI hL hok hdone (le_refl 0) (le_of_lt hL)
      (Or.inl rfl)
  · intro pre post hcs hlast
    have htr := Job.cycles_trigger pre j
    have hex := Job.cycles_exhausted (j.cycles pre).1 (by rw [htr]; exact hI)
      (by rw [htr]; exact hL) (by rw [htr]; exact hlast)
    refine ⟨hex.1, ?_⟩
    rw [hcs, Job.cycles_append, hex.2 post]
    simp
  · intro hL1 hlast hnz pre c post hcs hpre hc hsus
    have hearly := Job.cycles_early j hI hL1 pre hpre
    have hNext : j.trigger.Next c.tick = j.trigger.start + j.trigger.interval :=
      Trigger.Next_limit_one j.trigger c.tick hI hL1
    have hd : j.launched c = true := by
      have hdue : j.due c.tick c.tick = true := by
        rw [Job.due_iff, hNext]
        exact ⟨hlast, by simpa using hnz, hc⟩
      simp [Job.launched, hsus, hdue]
    obtain ⟨rs, hrs⟩ := hok
    have hrun : (j.Run c.done).1 = { j with last := c.done } := by
      rw [Job.Run_returned j c.done rs hrs]
    have hcd : c.tick ≤ c.done := hdone c (by rw [hcs]; simp)
    have hex := Job.cycles_exhausted { j with last := c.done } hI hL
      (by simp only [hL1]; omega)
    refine ⟨by rw [hearly], ?_, ?_⟩
    · rw [Job.cycles_append, hearly]
      simp [Job.cycles, hd]
    · rw [hcs, Job.cycles_append, hearly]
      simp [Job.cycles, hd, hrun, hex.2 post]

/-! ## Properties of `Job.Run` -/

theorem Job.Run_err_none_iff (j : Job) (now : Int) :
    (j.Run now).2.2 = none ↔ ∃ rs, j.function.Call j.args = CallOutcome.returned rs := by
  unfold Job.Run
  split <;> simp_all

/-- Claim C4.  `Run` sets the watermark to the current time exactly when the
invocation is fault-free, and then returns the values of the function in
order and no error; when the arguments do not fit the function, or the
function panics, it returns an error and leaves the job, hence the watermark
and every later `NextRun`, as it was. -/
theorem Job.Run_spec (j : Job) (now : Int) :
    (∀ rs, j.function.Call j.args = CallOutcome.returned rs →
        j.Run now = ({ j with last := now }, rs, none)) ∧
      (∀ e, j.function.Call j.args = CallOutcome.panicked e →
        (j.Run now).2.2 ≠ none ∧ (j.Run now).2.1 = [] ∧ (j.Run now).1 = j ∧
          ∀ t : Int, (j.Run now).1.NextRun t = j.NextRun t) ∧
      (∀ msg, j.function.check j.args = some msg →
        (j.Run now).2.2 = some (Error.jobPanickedWithValue (Value.str msg)) ∧
          (j.Run now).1 = j) ∧
      ((j.Run now).2.2 = none ↔ ∃ rs, j.function.Call j.args = CallOutcome.returned rs) ∧
      (j.Run now).1.last = (if (j.Run now).2.2 = none then now else j.last) := by
  refine ⟨fun rs h => Job.Run_returned j now rs h, ?_, ?_, Job.Run_err_none_iff j now, ?_⟩
  · intro e h
    obtain ⟨err, herr⟩ := Job.Run_panicked j now e h
    rw [herr]
    simp
  · intro msg h
    have hcall : j.function.Call j.args =
        CallOutcome.panicked (PanicValue.value (Value.str msg)) := by
      simp only [Func.Call, h]
    simp only [Job.Run, hcall, and_self]
  · unfold Job.Run
    split <;> simp

/-- Claim C4 at two jobs of the tests: one returns a string, the other
panics with it. -/
theorem Job.Run_spec_witness :
    Job.onceOnly.Run 7 = ({ Job.onceOnly with last := 7 }, [Value.str "test"], none) ∧
      ((({ Job.onceOnly with function := Func.panicking (PanicValue.value (Value.str "test")) }
        : Job).Run 7).2.2 ≠ none) :=
  ⟨(Job.Run_spec Job.onceOnly 7).1 [Value.str "test"] rfl,
    ((Job.Run_spec
      { Job.onceOnly with function := Func.panicking (PanicValue.value (Value.str "test")) }
      7).2.1 (PanicValue.value (Value.str "test")) rfl).1⟩

/-! ## Properties of `Queue` -/

theorem Queue.Run.loop_const (h : Heap) (now : Int) (jobs : List JobPtr) :
    ∀ i : Nat, Queue.Run.loop h (fun _ => now) i jobs =
      jobs.filter (fun job =>
        !Time.IsZero ((h job).NextRun now) && !Time.After ((h job).NextRun now) now) := by
  induction jobs with
  | nil => intro i; rfl
  | cons job rest ih =>
    intro i
    by_cases hd : (h job).due now now = true
    · have hd2 := hd
      simp only [Job.due] at hd2
      simp only [Queue.Run.loop, hd, if_true, ih, List.filter_cons, hd2]
    · have hd2 := hd
      simp only [Job.due] at hd2
      simp only [Queue.Run.loop, hd, ih, List.filter_cons, hd2]

/-- Claim C5.  With every clock reading of the cycle equal to `now`, `Run`
launches nothing for a suspended queue and otherwise launches, in list order,
exactly the jobs whose `NextRun` at `now` is neither the zero time nor after
`now`; `Run` leaves the queue as it is, and `Suspend` and `Resume` write only
the suspended flag. -/
theorem Queue.Run_dispatch_spec (q : Queue) (h : Heap) (now : Int) (clk : Nat → Int) :
    (q.Run h (fun _ => now)).2 =
        (if q.suspended then []
         else q.Jobs.filter (fun job =>
          !Time.IsZero ((h job).NextRun now) && !Time.After ((h job).NextRun now) now)) ∧
      (q.Run h clk).2 = (if q.suspended then [] else Queue.Run.loop h clk 0 q.Jobs) ∧
      (q.Run h clk).1 = q ∧
      q.Suspend = { q with suspended := true } ∧
      q.Resume = { q with suspended := false } := by
  refine ⟨?_, ?_, ?_, rfl, rfl⟩
  · cases hs : q.suspended <;> simp [Queue.Run, hs, Queue.Run.loop_const]
  · cases hs : q.suspended <;> simp [Queue.Run, hs]
  · cases hs : q.suspended <;> simp [Queue.Run, hs]

theorem Queue.Add.present_iff (job : JobPtr) (jobs : List JobPtr) :
    Queue.Add.present job jobs = true ↔ job ∈ jobs := by
  induction jobs with
  | nil => simp [Queue.Add.present]
  | cons j js ih =>
    by_cases hj : job = j
    · simp [Queue.Add.present, hj]
    · simp [Queue.Add.present, hj, ih]

theorem Queue.Add_Jobs (q : Queue) (job : JobPtr) :
    (q.Add job).Jobs = if job ∈ q.Jobs then q.Jobs else q.Jobs ++ [job] := by
  by_cases hm : job ∈ q.Jobs
  · have := (Queue.Add.present_iff job q.Jobs).mpr hm
    simp [Queue.Add, this, hm]
  · have : Queue.Add.present job q.Jobs = false := by
      cases hp : Queue.Add.present job q.Jobs with
      | false => rfl
      | true => exact absurd ((Queue.Add.present_iff job q.Jobs).mp hp) hm
    simp [Queue.Add, this, hm]

theorem Queue.Add_nodup (q : Queue) (job : JobPtr) (hq : q.Jobs.Nodup) :
    (q.Add job).Jobs.Nodup := by
  rw [Queue.Add_Jobs]
  by_cases hm : job ∈ q.Jobs
  · simpa [hm] using hq
  · simp only [hm, if_false]
    exact List.Nodup.append hq (List.nodup_singleton job) (by simpa using hm)

theorem Queue.Add_foldl_nodup (jobs : List JobPtr) :
    ∀ q : Queue, q.Jobs.Nodup → (jobs.foldl Queue.Add q).Jobs.Nodup := by
  induction jobs with
  | nil => intro q hq; simpa using hq
  | cons j js ih => intro q hq; exact ih (q.Add j) (Queue.Add_nodup q j hq)

/-- Claim C7.  `Add` leaves the job list as it is when the job is already an
entry and otherwise appends it at the end; it writes no other field; adding a
job twice is adding it once, and leaves one entry in a new queue; a queue
built from `NewQueue` by calls of `Add` holds no job twice. -/
theorem Queue.Add_spec (q : Queue) (job : JobPtr) :
    (q.Add job).Jobs = (if job ∈ q.Jobs then q.Jobs else q.Jobs ++ [job]) ∧
      (q.Add job).errors = q.errors ∧ (q.Add job).results = q.results ∧
      (q.Add job).suspended = q.suspended ∧
      (q.Add job).Add job = q.Add job ∧
      ((NewQueue.Add job).Add job).Jobs.length = 1 ∧
      ∀ jobs : List JobPtr, (jobs.foldl Queue.Add NewQueue).Jobs.Nodup := by
  have hin : job ∈ (q.Add job).Jobs := by
    rw [Queue.Add_Jobs]
    by_cases hm : job ∈ q.Jobs <;> simp [hm]
  have hidem : ∀ q2 : Queue, job ∈ q2.Jobs → q2.Add job = q2 := by
    intro q2 h2
    have := (Queue.Add.present_iff job q2.Jobs).mpr h2
    simp [Queue.Add, this]
  refine ⟨Queue.Add_Jobs q job, ?_, ?_, ?_, hidem _ hin, ?_, ?_⟩
  · unfold Queue.Add; split <;> rfl
  · unfold Queue.Add; split <;> rfl
  · unfold Queue.Add; split <;> rfl
  · simp [Queue.Add, Queue.Add.present, NewQueue]
  · intro jobs
    exact Queue.Add_foldl_nodup jobs NewQueue (by simp [NewQueue])

/-! ## The goroutine of a dispatched job -/

theorem Queue.Run.worker_panicked (q : Queue) (h : Heap) (job : JobPtr) (now : Int)
    (e : PanicValue) (hcall : (h job).function.Call (h job).args = CallOutcome.panicked e)
    (he : q.errors.buf.length < q.errors.cap) :
    ∃ err : Error, Queue.Run.worker q h job now =
      some ({ q with errors :=
        { q.errors with buf := q.errors.buf ++ [⟨(h job).Name, some err⟩] } }, h) := by
  obtain ⟨err, herr⟩ := Job.Run_panicked (h job) now e hcall
  refine ⟨err, ?_⟩
  simp [Queue.Run.worker, herr, Chan.send, he]

theorem Queue.Run.worker_returned (q : Queue) (h : Heap) (job : JobPtr) (now : Int)
    (rs : List Value) (hcall : (h job).function.Call (h job).args = CallOutcome.returned rs)
    (hne : rs ≠ []) (hr : q.results.buf.length < q.results.cap) :
    Queue.Run.worker q h job now =
      some ({ q with results :=
        { q.results with buf := q.results.buf ++ [⟨(h job).Name, rs⟩] } },
        Function.update h job { h job with last := now }) := by
  have hlen : 0 < rs.length := List.length_pos.mpr hne
  simp [Queue.Run.worker, Job.Run_returned (h job) now rs hcall, Chan.send, hr, hlen]

/-- One run cycle of a queue holding a value-returning job and a faulting
job, both due, with empty buffers: both are dispatched, and in either order of
completion the cycle ends with one result entry and one error entry. -/
theorem Queue.Run.cycle_two (q : Queue) (h : Heap) (p1 p2 : JobPtr) (t d1 d2 : Int)
    (rs : List Value) (e : PanicValue)
    (hjobs : q.Jobs = [p1, p2]) (hne : p1 ≠ p2) (hsus : q.suspended = false)
    (hrb : q.results.buf = []) (heb : q.errors.buf = [])
    (hrc : 0 < q.results.cap) (hec : 0 < q.errors.cap)
    (h1 : (h p1).function.Call (h p1).args = CallOutcome.returned rs) (hrs : rs ≠ [])
    (h2 : (h p2).function.Call (h p2).args = CallOutcome.panicked e)
    (hd1 : (h p1).due t t = true) (hd2 : (h p2).due t t = true) :
    (q.Run h (fun _ => t)).2 = [p1, p2] ∧
      ∀ order : List (JobPtr × Int),
        order = [(p1, d1), (p2, d2)] ∨ order = [(p2, d2), (p1, d1)] →
        ∃ q3 h3, Queue.Run.workers q h order = some (q3, h3) ∧
          q3.results.buf.length = 1 ∧ q3.errors.buf.length = 1 := by
  constructor
  · simp [Queue.Run, hsus, hjobs, Queue.Run.loop, hd1, hd2]
  · intro order horder
    rcases horder with rfl | rfl
    · have w1 := Queue.Run.worker_returned q h p1 d1 rs h1 hrs (by rw [hrb]; exact hrc)
      have hp2 : Function.update h p1 { h p1 with last := d1 } p2 = h p2 :=
        Function.update_noteq (Ne.symm hne) _ _
      obtain ⟨err, w2⟩ := Queue.Run.worker_panicked
        { q with results := { q.results with buf := q.results.buf ++ [⟨(h p1).Name, rs⟩] } }
        (Function.update h p1 { h p1 with last := d1 }) p2 d2 e (by rw [hp2]; exact h2)
        (by simp only [heb]; exact hec)
      simp only [Queue.Run.workers, w1, w2]
      refine ⟨_, _, rfl, ?_, ?_⟩
      · simp [hrb]
      · simp [heb]
    · obtain ⟨err, w2⟩ := Queue.Run.worker_panicked q h p2 d2 e h2 (by rw [heb]; exact hec)
      have w1 := Queue.Run.worker_returned
        { q with errors := { q.errors with buf := q.errors.buf ++ [⟨(h p2).Name, some err⟩] } }
        h p1 d1 rs h1 hrs (by simp only [hrb]; exact hrc)
      simp only [Queue.Run.workers, w2, w1]
      refine ⟨_, _, rfl, ?_, ?_⟩
      · simp [hrb]
      · simp [heb]

/-- Claim C6.  In a queue whose buffers have room, the goroutine of a job
whose function faults appends one error record with the name of the job to
the error buffer and leaves the result buffer alone; the goroutine of a job
whose function returns at least one value appends one result record with the
name of the job and the values, in order, to the result buffer and leaves the
error buffer alone.  A queue with empty buffers holding a value-returning job
and a faulting job, both due, ends a run cycle with one result entry and one
error entry. -/
theorem Queue.Run.worker_spec (q : Queue) (h : Heap) (job : JobPtr) (now : Int)
    (hr : q.results.buf.length < q.results.cap)
    (he : q.errors.buf.length < q.errors.cap) :
    (∀ e, (h job).function.Call (h job).args = CallOutcome.panicked e →
        ∃ err : Error, Queue.Run.worker q h job now =
          some ({ q with errors :=
            { q.errors with buf := q.errors.buf ++ [⟨(h job).Name, some err⟩] } }, h)) ∧
      (∀ rs, (h job).function.Call (h job).args = CallOutcome.returned rs → rs ≠ [] →
        Queue.Run.worker q h job now =
          some ({ q with results :=
            { q.results with buf := q.results.buf ++ [⟨(h job).Name, rs⟩] } },
            Function.update h job { h job with last := now })) ∧
      (∀ (p1 p2 : JobPtr) (d1 d2 : Int) (rs : List Value) (e : PanicValue),
        q.Jobs = [p1, p2] → p1 ≠ p2 → q.suspended = false →
        q.results.buf = [] → q.errors.buf = [] →
        (h p1).function.Call (h p1).args = CallOutcome.returned rs → rs ≠ [] →
        (h p2).function.Call (h p2).args = CallOutcome.panicked e →
        (h p1).due now now = true → (h p2).due now now = true →
        (q.Run h (fun _ => now)).2 = [p1, p2] ∧
          ∀ order : List (JobPtr × Int),
            order = [(p1, d1), (p2, d2)] ∨ order = [(p2, d2), (p1, d1)] →
            ∃ q3 h3, Queue.Run.workers q h order = some (q3, h3) ∧
              q3.results.buf.length = 1 ∧ q3.errors.buf.length = 1) := by
  refine ⟨fun e hcall => Queue.Run.worker_panicked q h job now e hcall he,
    fun rs hcall hne => Queue.Run.worker_returned q h job now rs hcall hne hr, ?_⟩
  intro p1 p2 d1 d2 rs e hjobs hne hsus hrb heb h1 hrs h2 hd1 hd2
  exact Queue.Run.cycle_two q h p1 p2 now d1 d2 rs e hjobs hne hsus hrb heb
    (by omega) (by omega) h1 hrs h2 hd1 hd2

theorem Heap.tests_due (job : JobPtr) : (Heap.tests job).due 100 100 = true := by
  have hN : ∀ j : Job, j.trigger = Job.onceOnly.trigger → j.last = 0 →
      j.due 100 100 = true := by
    intro j htr hlast
    rw [Job.due_iff, htr, Trigger.Next_limit_one _ 100 (by decide) (by decide), hlast]
    decide
  by_cases hj : job = 1
  · simp only [Heap.tests, hj, if_true]
    exact hN _ rfl rfl
  · simp only [Heap.tests, hj, if_false]
    exact hN _ rfl rfl

/-- Claim C6 at the queue of `TestQueue_Run`: the job at address 1 returns a
string, the job at address 2 panics, both are due at instant 100. -/
theorem Queue.Run.worker_spec_witness :
    ∃ q3 h3, Queue.Run.workers ((NewQueue.Add 1).Add 2) Heap.tests [(2, 101), (1, 103)] =
        some (q3, h3) ∧
      q3.results.buf.length = 1 ∧ q3.errors.buf.length = 1 :=
  ((Queue.Run.worker_spec ((NewQueue.Add 1).Add 2) Heap.tests 1 100
      (by decide) (by decide)).2.2
    1 2 103 101 [Value.str "test"] (PanicValue.value (Value.str "test"))
    rfl (by decide) rfl rfl rfl rfl (by decide) rfl
    (Heap.tests_due 1) (Heap.tests_due 2)).2 [(2, 101), (1, 103)] (Or.inr rfl)

/-! ## Resizing a buffer -/

theorem Chan.drainInto_fits {α : Type} (src : List α) :
    ∀ dst : Chan α, dst.buf.length + src.length ≤ dst.cap →
      Chan.drainInto src dst = some { dst with buf := dst.buf ++ src } := by
  induction src with
  | nil => intro dst _; simp [Chan.drainInto]
  | cons x xs ih =>
    intro dst hfit
    simp only [List.length_cons] at hfit
    have hroom : dst.buf.length < dst.cap := by omega
    simp only [Chan.drainInto, Chan.send, hroom, if_true]
    rw [ih]
    · simp
    · simp only [List.length_append, List.length_singleton]; omega

theorem Chan.drainInto_blocks {α : Type} (src : List α) :
    ∀ dst : Chan α, dst.buf.length ≤ dst.cap → dst.cap < dst.buf.length + src.length →
      Chan.drainInto src dst = none := by
  induction src with
  | nil => intro dst h1 h2; simp at h2; omega
  | cons x xs ih =>
    intro dst h1 h2
    simp only [List.length_cons] at h2
    by_cases hroom : dst.buf.length < dst.cap
    · simp only [Chan.drainInto, Chan.send, hroom, if_true]
      apply ih
      · simp only [List.length_append, List.length_singleton]; omega
      · simp only [List.length_append, List.length_singleton]; omega
    · simp [Chan.drainInto, Chan.send, hroom]

/-- The two resizing methods complete exactly when the queued entries fit the
requested capacity, and then keep all of them in order. -/
theorem Queue.MaxBuffered_eq (q : Queue) (n : Nat) :
    (q.errors.buf.length ≤ n →
        q.MaxBufferedErrors n = some { q with errors := { cap := n, buf := q.errors.buf } }) ∧
      (n < q.errors.buf.length → q.MaxBufferedErrors n = none) ∧
      (q.results.buf.length ≤ n →
        q.MaxBufferedResults n =
          some { q with results := { cap := n, buf := q.results.buf } }) ∧
      (n < q.results.buf.length → q.MaxBufferedResults n = none) := by
  refine ⟨fun hfit => ?_, fun hbig => ?_, fun hfit => ?_, fun hbig => ?_⟩
  · have hd := Chan.drainInto_fits q.errors.buf (Chan.make n)
      (by simpa [Chan.make] using hfit)
    simp only [Queue.MaxBufferedErrors, hd]
    simp [Chan.make]
  · have hd := Chan.drainInto_blocks q.errors.buf (Chan.make n)
      (by simp [Chan.make]) (by simpa [Chan.make] using hbig)
    simp only [Queue.MaxBufferedErrors, hd]
  · have hd := Chan.drainInto_fits q.results.buf (Chan.make n)
      (by simpa [Chan.make] using hfit)
    simp only [Queue.MaxBufferedResults, hd]
    simp [Chan.make]
  · have hd := Chan.drainInto_blocks q.results.buf (Chan.make n)
      (by simp [Chan.make]) (by simpa [Chan.make] using hbig)
    simp only [Queue.MaxBufferedResults, hd]

/-- Claim C8 fails on the code.  On a queue whose buffers hold two entries
each, `MaxBufferedErrors(1)` and `MaxBufferedResults(1)` do not complete: the
copy loop blocks on the second send, and no buffer holding the first entry is
installed.  Resizing to capacity 50 completes and keeps both entries. -/
theorem Queue.MaxBuffered_blocks :
    Queue.twoBuffered.MaxBufferedErrors 1 = none ∧
      Queue.twoBuffered.MaxBufferedResults 1 = none ∧
      Queue.twoBuffered.MaxBufferedErrors 50 =
        some { Queue.twoBuffered with
          errors := { cap := 50, buf := Queue.twoBuffered.errors.buf } } ∧
      Queue.twoBuffered.MaxBufferedResults 50 =
        some { Queue.twoBuffered with
          results := { cap := 50, buf := Queue.twoBuffered.results.buf } } := by
  refine ⟨rfl, rfl, rfl, rfl⟩

/-! ## Properties of `Scheduler` -/

/-- Claim C9.  `Start` returns the already-running error exactly when the
running flag is set, and then leaves the scheduler as it is; otherwise it
returns no error, sets the flag and launches one driver loop.  On a new
scheduler the first `Start` succeeds and the second fails; after `Stop` the
flag is clear and `Start` succeeds again. -/
theorem Scheduler.Start_spec (s : Scheduler) :
    ((s.Start).2 = some Error.alreadyRunning ↔ s.running = true) ∧
      ((s.Start).2 = none ↔ s.running = false) ∧
      (s.running = true → (s.Start).1 = s) ∧
      (s.running = false →
        (s.Start).1 = { s with running := true, loops := s.loops + 1 }) ∧
      (NewScheduler.Start).2 = none ∧
      ((NewScheduler.Start).1.Start).2 = some Error.alreadyRunning ∧
      (NewScheduler.Start).1.Start.1 = (NewScheduler.Start).1 ∧
      s.Stop.running = false ∧ (s.Stop.Start).2 = none ∧
      (s.Stop.Start).1.running = true := by
  refine ⟨?_, ?_, ?_, ?_, rfl, rfl, rfl, rfl, rfl, rfl⟩
  · cases hr : s.running <;> simp [Scheduler.Start, Scheduler.Running, hr]
  · cases hr : s.running <;> simp [Scheduler.Start, Scheduler.Running, hr]
  · intro hr; simp [Scheduler.Start, Scheduler.Running, hr]
  · intro hr; simp [Scheduler.Start, Scheduler.Running, hr]

/-- Claim C10 fails on the code.  After `Start`, a first loop check, `Stop`
and a second `Start` made before the first driver goroutine reaches its loop
condition again, two driver loops are active; each of them then finds the flag
set at its loop condition and stays in its loop. -/
theorem Scheduler.two_loops_reachable :
    (NewScheduler.exec [Event.start, Event.loopCheck, Event.stop, Event.start]).loops = 2 ∧
      (NewScheduler.exec [Event.start, Event.loopCheck, Event.stop, Event.start,
        Event.loopCheck, Event.loopCheck]).loops = 2 ∧
      (NewScheduler.exec [Event.start, Event.loopCheck, Event.stop, Event.start,
        Event.loopCheck, Event.loopCheck]).running = true ∧
      ¬ ∀ s : Scheduler, s.Reachable → s.loops ≤ 1 := by
  refine ⟨rfl, rfl, rfl, ?_⟩
  intro hall
  have h2 := hall (NewScheduler.exec [Event.start, Event.loopCheck, Event.stop, Event.start])
    ⟨_, rfl⟩
  exact absurd h2 (by decide)

/-! ## Triggers that never fire, and unlimited triggers -/

theorem Trigger.Next_zero_interval (t : Trigger) (now : Int) (h0 : t.interval = 0) :
    t.Next now = Time.zero := by
  simp [Trigger.Next, h0]

/-- A job that `Run` launches a goroutine for passed the test of the loop at
the clock readings of its position. -/
theorem Queue.Run.loop_mem (h : Heap) (clk : Nat → Int) (p : JobPtr) (jobs : List JobPtr) :
    ∀ i : Nat, p ∈ Queue.Run.loop h clk i jobs →
      ∃ n : Nat, (h p).due (clk (2 * n)) (clk (2 * n + 1)) = true := by
  induction jobs with
  | nil => intro i hp; simp [Queue.Run.loop] at hp
  | cons job rest ih =>
    intro i hp
    by_cases hd : (h job).due (clk (2 * i)) (clk (2 * i + 1)) = true
    · simp only [Queue.Run.loop, hd, if_true] at hp
      rcases List.mem_cons.mp hp with rfl | hrest
      · exact ⟨i, hd⟩
      · exact ih (i + 1) hrest
    · simp only [Queue.Run.loop, hd] at hp
      exact ih (i + 1) hp

theorem Queue.Run_mem (q : Queue) (h : Heap) (clk : Nat → Int) (p : JobPtr)
    (hp : p ∈ (q.Run h clk).2) :
    ∃ n : Nat, (h p).due (clk (2 * n)) (clk (2 * n + 1)) = true := by
  cases hs : q.suspended with
  | true => simp [Queue.Run, hs] at hp
  | false =>
    simp only [Queue.Run, hs] at hp
    exact Queue.Run.loop_mem h clk p q.Jobs 0 (by simpa using hp)

/-- Claim C11.  A trigger with interval 0 has the zero time as `Next` at every
instant, whatever its limit and anchor; a job holding it has the zero time as
`NextRun`, is never due, is executed by no run cycle and is launched by no
`Queue.Run`.  The trigger of a new job and the trigger installed by `Schedule`
have interval 0. -/
theorem Trigger.Next_zero_interval_spec (t : Trigger) (h0 : t.interval = 0) :
    (∀ now : Int, t.Next now = Time.zero) ∧
      (∀ j : Job, j.trigger = t →
        (∀ now : Int, j.NextRun now = Time.zero) ∧
          (∀ t1 t2 : Int, j.due t1 t2 = false) ∧
          ∀ cs : List Cycle, j.cycles cs = (j, 0)) ∧
      (∀ (q : Queue) (h : Heap) (clk : Nat → Int) (p : JobPtr),
        (h p).trigger = t → p ∉ (q.Run h clk).2) ∧
      (∀ (name : String) (f : Func) (args : List Value) (now : Int),
        (NewJob name f args now).trigger.interval = 0) ∧
      (∀ (j : Job) (now : Int), (j.Schedule now).trigger.interval = 0) := by
  have hnext : ∀ now : Int, t.Next now = Time.zero :=
    fun now => Trigger.Next_zero_interval t now h0
  have hdue : ∀ j : Job, j.trigger = t → ∀ t1 t2 : Int, j.due t1 t2 = false := by
    intro j hj t1 t2
    simp [Job.due, Job.NextRun, hj, hnext]
  refine ⟨hnext, ?_, ?_, fun _ _ _ _ => rfl, fun _ _ => rfl⟩
  · intro j hj
    refine ⟨fun now => by simp [Job.NextRun, hj, hnext], hdue j hj, ?_⟩
    intro cs
    induction cs with
    | nil => rfl
    | cons c cs ih => simp [Job.cycles, Job.launched, hdue j hj, ih]
  · intro q h clk p hp hmem
    obtain ⟨n, hn⟩ := Queue.Run_mem q h clk p hmem
    rw [hdue (h p) hp] at hn
    exact Bool.false_ne_true hn

/-- Claim C11 at the trigger of a new job, asked at instant 7. -/
theorem Trigger.Next_zero_interval_spec_witness :
    (NewJob "test" (Func.returning []) [] 5).NextRun 7 = Time.zero :=
  ((Trigger.Next_zero_interval_spec (NewTrigger 5) rfl).2.1
    (NewJob "test" (Func.returning []) [] 5) rfl).1 7

/-- Claim C12.  `Every` sets the interval to `max d 0` for a string that
parses to `d` and panics with the parse error, writing nothing, for a string
that does not parse; `Limit` sets the limit to `max n 0`; each of `Every`,
`Limit` and `From` writes its own field only. -/
theorem Trigger.setters_spec (parse : String → Except String Int) (t : Trigger)
    (str : String) (d n tm : Int) :
    (parse str = Except.ok d →
        Trigger.Every.ofString parse t str = (t.Every d, none)) ∧
      (∀ err : String, parse str = Except.error err →
        Trigger.Every.ofString parse t str = (t, some err)) ∧
      (t.Every d).interval = max d 0 ∧ (d < 0 → (t.Every d).interval = 0) ∧
      (t.Every d).start = t.start ∧ (t.Every d).limit = t.limit ∧
      (t.Limit n).limit = max n 0 ∧ (n < 0 → (t.Limit n).limit = 0) ∧
      (t.Limit n).interval = t.interval ∧ (t.Limit n).start = t.start ∧
      (t.From tm).start = tm ∧ (t.From tm).interval = t.interval ∧
      (t.From tm).limit = t.limit := by
  have hE : (t.Every d).interval = max d 0 ∧ (t.Every d).start = t.start ∧
      (t.Every d).limit = t.limit := by
    unfold Trigger.Every
    split
    · refine ⟨?_, rfl, rfl⟩
      simp only
      omega
    · refine ⟨?_, rfl, rfl⟩
      simp only
      omega
  have hLm : (t.Limit n).limit = max n 0 := by
    simp only [Trigger.Limit]
    split <;> omega
  refine ⟨fun h => by simp only [Trigger.Every.ofString, h],
    fun err h => by simp only [Trigger.Every.ofString, h],
    hE.1, fun h => by rw [hE.1]; omega, hE.2.1, hE.2.2,
    hLm, fun h => by rw [hLm]; omega, rfl, rfl, rfl, rfl, rfl⟩

/-- Claim C12 at a negative duration string and at a string that does not
parse. -/
theorem Trigger.setters_spec_witness :
    (Trigger.Every.ofString Trigger.Every.parseTest (NewTrigger 0) "-5ns").1.interval = 0 ∧
      Trigger.Every.ofString Trigger.Every.parseTest (NewTrigger 0) "soon" =
        (NewTrigger 0, some "time: invalid duration") :=
  ⟨by
      rw [(Trigger.setters_spec Trigger.Every.parseTest (NewTrigger 0) "-5ns" (-5) 0 0).1 rfl]
      exact (Trigger.setters_spec Trigger.Every.parseTest (NewTrigger 0) "-5ns" (-5) 0 0).2.2.2.1
        (by decide),
    (Trigger.setters_spec Trigger.Every.parseTest (NewTrigger 0) "soon" 0 0 0).2.1
      "time: invalid duration" rfl⟩

/-- Claim C13.  A trigger with positive interval and limit 0 has a `Next` that
is never before `now`; a job holding it passes the test of `Queue.Run`, all
clock readings being `now`, only if `now` is `start + k * interval` for some
`k ≥ 1`, and at every other instant it is not launched. -/
theorem Trigger.Next_unlimited_spec (t : Trigger) (now : Int) (hI : 0 < t.interval)
    (hL : t.limit = 0) :
    now ≤ t.Next now ∧
      (∀ j : Job, j.trigger = t → j.due now now = true →
        ∃ k : Int, 1 ≤ k ∧ now = t.start + k * t.interval) ∧
      (∀ j : Job, j.trigger = t →
        (¬ ∃ k : Int, 1 ≤ k ∧ now = t.start + k * t.interval) → j.due now now = false) ∧
      (∀ (q : Queue) (h : Heap) (p : JobPtr), (h p).trigger = t →
        p ∈ (q.Run h (fun _ => now)).2 →
        ∃ k : Int, 1 ≤ k ∧ now = t.start + k * t.interval) ∧
      (∀ (q : Queue) (h : Heap) (p : JobPtr), (h p).trigger = t →
        (¬ ∃ k : Int, 1 ≤ k ∧ now = t.start + k * t.interval) →
        p ∉ (q.Run h (fun _ => now)).2) := by
  obtain ⟨k, hk, _, heq, hcase⟩ := Trigger.Next_cases t now hI
  have hge : now ≤ t.Next now := by
    rcases hcase with ⟨h1, _⟩ | ⟨h1, _, _⟩
    · rw [heq]; exact h1
    · omega
  have hexact : ∀ j : Job, j.trigger = t → j.due now now = true →
      ∃ k : Int, 1 ≤ k ∧ now = t.start + k * t.interval := by
    intro j hj hd
    have h3 := (Job.due_iff j now now).mp hd
    rw [hj] at h3
    exact ⟨k, hk, by omega⟩
  have hq : ∀ (q : Queue) (h : Heap) (p : JobPtr), (h p).trigger = t →
      p ∈ (q.Run h (fun _ => now)).2 →
      ∃ k : Int, 1 ≤ k ∧ now = t.start + k * t.interval := by
    intro q h p hp hmem
    obtain ⟨n, hn⟩ := Queue.Run_mem q h (fun _ => now) p hmem
    exact hexact (h p) hp hn
  refine ⟨hge, hexact, ?_, hq, fun q h p hp hno hmem => hno (hq q h p hp hmem)⟩
  intro j hj hno
  cases hd : j.due now now with
  | false => rfl
  | true => exact absurd (hexact j hj hd) hno

/-- Claim C13 at the job `Job.everyThree` (anchor 10, interval 3) at instant
20, which is no occurrence: the job is not launched. -/
theorem Trigger.Next_unlimited_spec_witness :
    (20 : Int) ≤ Job.everyThree.trigger.Next 20 ∧ Job.everyThree.due 20 20 = false :=
  ⟨(Trigger.Next_unlimited_spec Job.everyThree.trigger 20 (by decide) rfl).1,
    (Trigger.Next_unlimited_spec Job.everyThree.trigger 20 (by decide) rfl).2.2.1
      Job.everyThree rfl (by
        rintro ⟨k, hk, h⟩
        have h2 : (20 : Int) = 10 + k * 3 := h
        omega)⟩

/-! ## Adding a job through the scheduler -/

theorem Scheduler.Queues.find_filter (name other : String) (hne : name ≠ other)
    (entries : List (String × Option QueuePtr)) :
    Scheduler.Queues.find other (entries.filter (fun entry => decide (entry.1 ≠ name))) =
      Scheduler.Queues.find other entries := by
  induction entries with
  | nil => rfl
  | cons e rest ih =>
    obtain ⟨key, queue⟩ := e
    simp only [ne_eq, decide_not] at ih ⊢
    by_cases hk : key = name
    · have hko : ¬ key = other := by rw [hk]; exact hne
      simp [List.filter_cons, hk, Scheduler.Queues.find, hne, ih]
    · by_cases hko : key = other
      · have hon : ¬ other = name := fun h => hne h.symm
        simp [List.filter_cons, Scheduler.Queues.find, hko, hon]
      · simp [List.filter_cons, hk, Scheduler.Queues.find, hko, ih]

/-- What the map holds under a key after the assignment made by `Queue`. -/
theorem Scheduler.Queues.find_Queue (s : Scheduler) (name : String) (queue : Option QueuePtr)
    (other : String) :
    Scheduler.Queues.find other (s.Queue name queue).Queues =
      if name = other then some queue else Scheduler.Queues.find other s.Queues := by
  by_cases hne : name = other
  · simp [Scheduler.Queue, Scheduler.Queues.find, hne]
  · simp only [Scheduler.Queue, Scheduler.Queues.find, hne, if_false]
    exact Scheduler.Queues.find_filter name other hne s.Queues

theorem Scheduler.AddToQueue_bound (s : Scheduler) (qs : QueueHeap) (name : String)
    (job : JobPtr) (p : QueuePtr)
    (hp : Scheduler.Queues.find name s.Queues = some (some p)) :
    s.AddToQueue qs name job = (s, Function.update qs p ((qs p).Add job), none) := by
  simp [Scheduler.AddToQueue, Scheduler.Queues.index, hp]

theorem Scheduler.AddToQueue_nil (s : Scheduler) (qs : QueueHeap) (name : String)
    (job : JobPtr)
    (hp : Scheduler.Queues.find name s.Queues = none ∨
      Scheduler.Queues.find name s.Queues = some none) :
    s.AddToQueue qs name job = (s, qs, some Fault.nilDereference) := by
  rcases hp with h | h <;> simp [Scheduler.AddToQueue, Scheduler.Queues.index, h]

/-- Registrations that never bind "default" to nil keep it bound to a queue. -/
theorem Scheduler.Queue_foldl_default (regs : List (String × Option QueuePtr))
    (hregs : ∀ r ∈ regs, r.1 = "default" → r.2 ≠ none) :
    ∀ s : Scheduler, (∃ p, Scheduler.Queues.find "default" s.Queues = some (some p)) →
      ∃ p, Scheduler.Queues.find "default"
        (regs.foldl (fun s2 r => s2.Queue r.1 r.2) s).Queues = some (some p) := by
  induction regs with
  | nil => intro s hs; simpa using hs
  | cons r rest ih =>
    intro s hs
    simp only [List.foldl_cons]
    apply ih (fun x hx => hregs x (List.mem_cons_of_mem r hx))
    rw [Scheduler.Queues.find_Queue]
    by_cases hr : r.1 = "default"
    · have hnn := hregs r (List.mem_cons_self r rest) hr
      obtain ⟨p, hp⟩ := Option.ne_none_iff_exists.mp hnn
      exact ⟨p, by simp [hr, ← hp]⟩
    · simpa [hr] using hs

/-- Claim C14 as stated fails: on `Scheduler.withNilQueue` the name "x" is a
key of the registry, and `AddToQueue` under that name faults. -/
theorem Scheduler.AddToQueue_nil_key_counterexample :
    (Scheduler.Queues.find "x" Scheduler.withNilQueue.Queues).isSome = true ∧
      (Scheduler.withNilQueue.AddToQueue NewScheduler.queues "x" 1).2.2 =
        some Fault.nilDereference := by
  refine ⟨by decide, by decide⟩

/-- Claim C14, amended.  `AddToQueue` completes without fault exactly when the
name is a key of the registry bound to a non-nil queue; it then has the effect
of `Add` on that queue and leaves every other queue as it is.  For a name that
is no key, or a key bound to nil, it faults on the nil queue and writes
nothing.  It never writes the registry.  `Add` is `AddToQueue` under the name
"default", and succeeds on every scheduler that binds "default" to a queue,
as `NewScheduler` does and every scheduler obtained from it by registrations
that do not bind "default" to nil. -/
theorem Scheduler.AddToQueue_spec (s : Scheduler) (qs : QueueHeap) (name : String)
    (job : JobPtr) :
    ((s.AddToQueue qs name job).2.2 = none ↔
        ∃ p, Scheduler.Queues.find name s.Queues = some (some p)) ∧
      (∀ p, Scheduler.Queues.find name s.Queues = some (some p) →
        (s.AddToQueue qs name job).2.1 p = (qs p).Add job ∧
          ∀ p2, p2 ≠ p → (s.AddToQueue qs name job).2.1 p2 = qs p2) ∧
      (Scheduler.Queues.find name s.Queues = none ∨
          Scheduler.Queues.find name s.Queues = some none →
        s.AddToQueue qs name job = (s, qs, some Fault.nilDereference)) ∧
      (s.AddToQueue qs name job).1 = s ∧
      s.Add qs job = s.AddToQueue qs "default" job ∧
      ((∃ p, Scheduler.Queues.find "default" s.Queues = some (some p)) →
        (s.Add qs job).2.2 = none) ∧
      (NewScheduler.Add qs job).2.2 = none ∧
      (∀ regs : List (String × Option QueuePtr),
        (∀ r ∈ regs, r.1 = "default" → r.2 ≠ none) →
        ((regs.foldl (fun s2 r => s2.Queue r.1 r.2) NewScheduler).Add qs job).2.2 = none) := by
  have hadd : ∀ s2 : Scheduler,
      (∃ p, Scheduler.Queues.find "default" s2.Queues = some (some p)) →
      (s2.Add qs job).2.2 = none := by
    intro s2 ⟨p, hp⟩
    rw [Scheduler.Add, Scheduler.AddToQueue_bound s2 qs "default" job p hp]
  have hnew : ∃ p, Scheduler.Queues.find "default" NewScheduler.Queues = some (some p) :=
    ⟨0, rfl⟩
  refine ⟨?_, ?_, Scheduler.AddToQueue_nil s qs name job, ?_, rfl, hadd s, hadd _ hnew, ?_⟩
  · constructor
    · intro hok
      cases hf : Scheduler.Queues.find name s.Queues with
      | none =>
        rw [Scheduler.AddToQueue_nil s qs name job (Or.inl hf)] at hok
        simp at hok
      | some entry =>
        cases entry with
        | none =>
          rw [Scheduler.AddToQueue_nil s qs name job (Or.inr hf)] at hok
          simp at hok
        | some p => exact ⟨p, rfl⟩
    · intro ⟨p, hp⟩
      rw [Scheduler.AddToQueue_bound s qs name job p hp]
  · intro p hp
    rw [Scheduler.AddToQueue_bound s qs name job p hp]
    exact ⟨by simp, fun p2 hne => Function.update_noteq hne _ _⟩
  · unfold Scheduler.AddToQueue
    split <;> rfl
  · intro regs hregs
    exact hadd _ (Scheduler.Queue_foldl_default regs hregs NewScheduler hnew)

/-- Claim C14, amended, at a new scheduler to which a second queue (address 1)
is registered under the name "test": `Add` puts the job into the default
queue and leaves the other queue empty. -/
theorem Scheduler.AddToQueue_spec_witness :
    ((NewScheduler.Queue "test" (some 1)).Add NewScheduler.queues 7).2.2 = none ∧
      (((NewScheduler.Queue "test" (some 1)).AddToQueue NewScheduler.queues "default" 7).2.1
        0).Jobs = [7] ∧
      (((NewScheduler.Queue "test" (some 1)).AddToQueue NewScheduler.queues "default" 7).2.1
        1).Jobs = [] :=
  ⟨(Scheduler.AddToQueue_spec (NewScheduler.Queue "test" (some 1)) NewScheduler.queues
      "default" 7).2.2.2.2.2.1 ⟨0, by decide⟩,
    by
      rw [((Scheduler.AddToQueue_spec (NewScheduler.Queue "test" (some 1))
        NewScheduler.queues "default" 7).2.1 0 (by decide)).1]
      rfl,
    by
      rw [((Scheduler.AddToQueue_spec (NewScheduler.Queue "test" (some 1))
        NewScheduler.queues "default" 7).2.1 0 (by decide)).2 1 (by decide)]
      rfl⟩

/-! ## A queue through repeated run cycles -/

/-- A goroutine that completes leaves the job list as it is and writes the
record of its own job only. -/
theorem Queue.Run.worker_frame (q : Queue) (h : Heap) (job : JobPtr) (now : Int)
    (q2 : Queue) (h2 : Heap) (hw : Queue.Run.worker q h job now = some (q2, h2)) :
    q2.Jobs = q.Jobs ∧ h2 = Function.update h job ((h job).Run now).1 := by
  unfold Queue.Run.worker at hw
  rcases hrun : (h job).Run now with ⟨j1, res, err⟩
  rw [hrun] at hw
  simp only at hw
  by_cases hres : res.length > 0
  · cases hsend : q.results.send { Name := j1.Name, Results := res } with
    | none => simp [hres, hsend] at hw
    | some c =>
      by_cases herr : err ≠ none
      · cases hsend2 : q.errors.send { Name := j1.Name, Error := err } with
        | none => simp [hres, hsend, herr, hsend2] at hw
        | some c2 =>
          simp [hres, hsend, herr, hsend2] at hw
          obtain ⟨rfl, rfl⟩ := hw
          exact ⟨rfl, rfl⟩
      · simp [hres, hsend, herr] at hw
        obtain ⟨rfl, rfl⟩ := hw
        exact ⟨rfl, rfl⟩
  · by_cases herr : err ≠ none
    · cases hsend2 : q.errors.send { Name := j1.Name, Error := err } with
      | none => simp [hres, herr, hsend2] at hw
      | some c2 =>
        simp [hres, herr, hsend2] at hw
        obtain ⟨rfl, rfl⟩ := hw
        exact ⟨rfl, rfl⟩
    · simp [hres, herr] at hw
      obtain ⟨rfl, rfl⟩ := hw
      exact ⟨rfl, rfl⟩

/-- The goroutines of a cycle, when they all complete, leave the job list as
it is, leave alone the jobs they were not launched for, and run once each job
they were launched for once. -/
theorem Queue.Run.workers_frame (now : Int) (ds : List JobPtr) :
    ∀ (q : Queue) (h : Heap) (q2 : Queue) (h2 : Heap),
      Queue.Run.workers q h (ds.map (fun p => (p, now))) = some (q2, h2) →
      q2.Jobs = q.Jobs ∧ (∀ p, p ∉ ds → h2 p = h p) ∧
        (ds.Nodup → ∀ p ∈ ds, h2 p = ((h p).Run now).1) := by
  induction ds with
  | nil =>
    intro q h q2 h2 hw
    simp only [List.map_nil, Queue.Run.workers, Option.some.injEq, Prod.mk.injEq] at hw
    obtain ⟨rfl, rfl⟩ := hw
    exact ⟨rfl, fun _ _ => rfl, fun _ p hp => absurd hp (List.not_mem_nil p)⟩
  | cons a rest ih =>
    intro q h q2 h2 hw
    simp only [List.map_cons, Queue.Run.workers] at hw
    cases hwa : Queue.Run.worker q h a now with
    | none => simp [hwa] at hw
    | some r =>
      obtain ⟨q1, h1⟩ := r
      simp only [hwa] at hw
      obtain ⟨hjobs1, hheap1⟩ := Queue.Run.worker_frame q h a now q1 h1 hwa
      obtain ⟨hjobs2, hout, hin⟩ := ih q1 h1 q2 h2 hw
      refine ⟨by rw [hjobs2, hjobs1], ?_, ?_⟩
      · intro p hp
        have hpa : p ≠ a := fun e => hp (by rw [e]; exact List.mem_cons_self a rest)
        have hpr : p ∉ rest := fun e => hp (List.mem_cons_of_mem a e)
        rw [hout p hpr, hheap1, Function.update_noteq hpa]
      · intro hnd p hp
        have hnd2 := List.nodup_cons.mp hnd
        rcases List.mem_cons.mp hp with rfl | hprest
        · rw [hout p hnd2.1, hheap1, Function.update_same]
        · have hpa : p ≠ a := fun e => hnd2.1 (by rw [← e]; exact hprest)
          rw [hin hnd2.2 p hprest, hheap1, Function.update_noteq hpa]

/-- What a cycle launches: nothing when the queue is suspended at the cycle,
and otherwise the jobs of the list that are due at its instant. -/
theorem Queue.cycles.launches_eq (q : Queue) (h : Heap) (c : Cycle) :
    ((if c.suspended then (if c.drained then q.drained else q).Suspend
        else (if c.drained then q.drained else q).Resume).Run h (fun _ => c.tick)).2 =
      if c.suspended then [] else q.Jobs.filter (fun p => (h p).due c.tick c.tick) := by
  have hjobs : (if c.drained then q.drained else q).Jobs = q.Jobs := by
    split <;> rfl
  cases hs : c.suspended with
  | true => simp [Queue.Run, Queue.Suspend]
  | false =>
    simp only [Queue.Run, Queue.Resume, Bool.not_false, if_true, Bool.false_eq_true,
      if_false, Queue.Run.loop_const, hjobs]
    rfl

/-- The part of `Queue.cycles` that concerns one job: in a queue that holds
the job and holds no job twice, the record of the job and the number of its
executions after the cycles are those of `Job.cycles`. -/
theorem Queue.cycles_job (p : JobPtr) (cs : List Cycle) :
    ∀ (q : Queue) (h : Heap) (q3 : Queue) (h3 : Heap) (n : Nat),
      p ∈ q.Jobs → q.Jobs.Nodup → Queue.cycles q h p cs = some (q3, h3, n) →
      q3.Jobs = q.Jobs ∧ h3 p = ((h p).cycles cs).1 ∧ n = ((h p).cycles cs).2 := by
  induction cs with
  | nil =>
    intro q h q3 h3 n _ _ hrun
    simp only [Queue.cycles, Option.some.injEq, Prod.mk.injEq] at hrun
    obtain ⟨rfl, rfl, rfl⟩ := hrun
    exact ⟨rfl, rfl, rfl⟩
  | cons c cs ih =>
    intro q h q3 h3 n hmem hnd hrun
    simp only [Queue.cycles] at hrun
    rw [Queue.cycles.launches_eq] at hrun
    have hq1 : (if c.suspended then (if c.drained then q.drained else q).Suspend
        else (if c.drained then q.drained else q).Resume).Jobs = q.Jobs := by
      cases c.suspended <;> cases c.drained <;> rfl
    generalize (if c.suspended then (if c.drained then q.drained else q).Suspend
        else (if c.drained then q.drained else q).Resume) = q1 at hrun hq1
    have hlnd : (if c.suspended then [] else
        q.Jobs.filter (fun p => (h p).due c.tick c.tick)).Nodup := by
      split
      · exact List.nodup_nil
      · exact hnd.filter _
    have hlmem : p ∈ (if c.suspended then [] else
        q.Jobs.filter (fun p => (h p).due c.tick c.tick)) ↔ (h p).launched c = true := by
      cases hs : c.suspended <;> simp [Job.launched, hs, hmem]
    generalize (if c.suspended then [] else
        q.Jobs.filter (fun p => (h p).due c.tick c.tick)) = launches at hrun hlnd hlmem
    cases hw : Queue.Run.workers q1 h (launches.map (fun p => (p, c.done))) with
    | none => simp [hw] at hrun
    | some r =>
      obtain ⟨q2, h2⟩ := r
      simp only [hw] at hrun
      obtain ⟨hjobs2, hout, hin⟩ := Queue.Run.workers_frame c.done launches q1 h q2 h2 hw
      have hj2 : q2.Jobs = q.Jobs := by rw [hjobs2, hq1]
      cases hrest : Queue.cycles q2 h2 p cs with
      | none => simp [hrest] at hrun
      | some r2 =>
        obtain ⟨q4, h4, n4⟩ := r2
        simp only [hrest, Option.some.injEq, Prod.mk.injEq] at hrun
        obtain ⟨rfl, rfl, rfl⟩ := hrun
        obtain ⟨hj4, hh4, hn4⟩ := ih q2 h2 q4 h4 n4 (by rw [hj2]; exact hmem)
          (by rw [hj2]; exact hnd) hrest
        by_cases hd : (h p).launched c = true
        · have hp : p ∈ launches := hlmem.mpr hd
          have hcount : launches.count p = 1 := List.count_eq_one_of_mem hlnd hp
          rw [hin hlnd p hp] at hh4 hn4
          simp only [Job.cycles, hd, if_true]
          exact ⟨by rw [hj4, hj2], hh4, by rw [hcount, hn4]⟩
        · have hp : p ∉ launches := fun e => hd (hlmem.mp e)
          have hcount : launches.count p = 0 := List.count_eq_zero_of_not_mem hp
          rw [hout p hp] at hh4 hn4
          simp only [Job.cycles, hd]
          exact ⟨by rw [hj4, hj2], hh4, by rw [hcount, hn4]; rfl⟩

/-- A cycle that launches nothing leaves the job records as they are. -/
theorem Queue.cycles_idle (q : Queue) (h : Heap) (p : JobPtr) (c : Cycle)
    (hidle : ∀ x ∈ q.Jobs, (h x).launched c = false) :
    ∃ q3, Queue.cycles q h p [c] = some (q3, h, 0) := by
  have hl : (if c.suspended then [] else
      q.Jobs.filter (fun x => (h x).due c.tick c.tick)) = [] := by
    cases hs : c.suspended with
    | true => rfl
    | false =>
      simp only [Bool.false_eq_true, if_false, List.filter_eq_nil_iff]
      intro x hx
      have := hidle x hx
      simpa [Job.launched, hs] using this
  simp only [Queue.cycles]
  rw [Queue.cycles.launches_eq, hl]
  exact ⟨_, rfl⟩

/-- Claim C3 as stated fails in its last sentence.  Each of the three jobs is
the only job of a queue, has a trigger with positive interval and limit 1 and
a function that never faults, and the cycle at instant 200 is at or after
`start + interval`; none of them is executed.  The first has never run and is
anchored before the zero time; the second has a watermark that is already
past its only occurrence; the third is in a queue that is suspended at the
cycle. -/
theorem Queue.cycles_once_counterexample :
    (0 < Job.anchoredBeforeZero.trigger.interval ∧
      Job.anchoredBeforeZero.trigger.limit = 1 ∧
      Job.anchoredBeforeZero.last = Time.zero ∧
      Job.anchoredBeforeZero.function.Call Job.anchoredBeforeZero.args =
        CallOutcome.returned [] ∧
      Cycle.ordered 0 [⟨200, 201, false, false⟩] = true ∧
      Job.anchoredBeforeZero.trigger.start + Job.anchoredBeforeZero.trigger.interval ≤ 200 ∧
      ∃ q3 h3, Queue.cycles (NewQueue.Add 1) (fun _ => Job.anchoredBeforeZero) 1
        [⟨200, 201, false, false⟩] = some (q3, h3, 0)) ∧
    (0 < Job.anchoredBeforeLastRun.trigger.interval ∧
      Job.anchoredBeforeLastRun.trigger.limit = 1 ∧
      Job.anchoredBeforeLastRun.function.Call Job.anchoredBeforeLastRun.args =
        CallOutcome.returned [] ∧
      Cycle.ordered 0 [⟨200, 201, false, false⟩] = true ∧
      Job.anchoredBeforeLastRun.trigger.start + Job.anchoredBeforeLastRun.trigger.interval
        ≤ 200 ∧
      ∃ q3 h3, Queue.cycles (NewQueue.Add 1) (fun _ => Job.anchoredBeforeLastRun) 1
        [⟨200, 201, false, false⟩] = some (q3, h3, 0)) ∧
    (0 < Job.onceOnly.trigger.interval ∧
      Job.onceOnly.trigger.limit = 1 ∧
      Job.onceOnly.last = Time.zero ∧
      Job.onceOnly.function.Call Job.onceOnly.args =
        CallOutcome.returned [Value.str "test"] ∧
      Cycle.ordered 0 [⟨200, 201, true, false⟩] = true ∧
      Job.onceOnly.trigger.start + Job.onceOnly.trigger.interval ≤ 200 ∧
      ∃ q3 h3, Queue.cycles (NewQueue.Add 1) (fun _ => Job.onceOnly) 1
        [⟨200, 201, true, false⟩] = some (q3, h3, 0)) := by
  have hA : Job.anchoredBeforeZero.due 200 200 = false := by
    apply Job.due_false_of_consumed
    rw [Trigger.Next_limit_one _ 200 (by decide) (by decide)]
    decide
  have hB : Job.anchoredBeforeLastRun.due 200 200 = false := by
    apply Job.due_false_of_consumed
    rw [Trigger.Next_limit_one _ 200 (by decide) (by decide)]
    decide
  refine ⟨⟨by decide, by decide, rfl, rfl, by decide, by decide, ?_⟩,
    ⟨by decide, by decide, rfl, by decide, by decide, ?_⟩,
    ⟨by decide, by decide, rfl, rfl, by decide, by decide, ?_⟩⟩
  · obtain ⟨q3, hq3⟩ := Queue.cycles_idle (NewQueue.Add 1) (fun _ => Job.anchoredBeforeZero) 1
      ⟨200, 201, false, false⟩ (fun _ _ => by simp [Job.launched, hA])
    exact ⟨q3, _, hq3⟩
  · obtain ⟨q3, hq3⟩ := Queue.cycles_idle (NewQueue.Add 1)
      (fun _ => Job.anchoredBeforeLastRun) 1
      ⟨200, 201, false, false⟩ (fun _ _ => by simp [Job.launched, hB])
    exact ⟨q3, _, hq3⟩
  · obtain ⟨q3, hq3⟩ := Queue.cycles_idle (NewQueue.Add 1) (fun _ => Job.onceOnly) 1
      ⟨200, 201, true, false⟩ (fun _ _ => by simp [Job.launched])
    exact ⟨q3, _, hq3⟩

/-- Claim C3, amended.  Take a job of a queue that holds no job twice, with
positive interval, positive limit `L` and a function that never faults, and
any sequence of run cycles of the queue at non-decreasing instants in which
every launched execution completes before the next cycle.  The job is
executed at most `L` times; once its watermark is at or after
`start + L * interval` it is never due again and is not executed any more.
For `L = 1`, a job whose watermark is before `start + interval`, that instant
not being the zero time, is executed exactly once, at the first cycle at or
after `start + interval` at which the queue is not suspended, whatever cycles
follow. -/
theorem Queue.cycles_spec (q : Queue) (h : Heap) (p : JobPtr) (lo : Int) (cs : List Cycle)
    (hmem : p ∈ q.Jobs) (hnd : q.Jobs.Nodup)
    (hI : 0 < (h p).trigger.interval) (hL : 0 < (h p).trigger.limit)
    (hok : ∃ rs, (h p).function.Call (h p).args = CallOutcome.returned rs)
    (hord : Cycle.ordered lo cs = true)
    (q3 : Queue) (h3 : Heap) (n : Nat)
    (hrun : Queue.cycles q h p cs = some (q3, h3, n)) :
    (n : Int) ≤ (h p).trigger.limit ∧
      (∀ (pre post : List Cycle) (q1 : Queue) (h1 : Heap) (n1 : Nat), cs = pre ++ post →
        Queue.cycles q h p pre = some (q1, h1, n1) →
        (h p).trigger.start + (h p).trigger.limit * (h p).trigger.interval ≤ (h1 p).last →
        (∀ t1 t2 : Int, (h1 p).due t1 t2 = false) ∧ n = n1) ∧
      ((h p).trigger.limit = 1 →
        (h p).last < (h p).trigger.start + (h p).trigger.interval →
        (h p).trigger.start + (h p).trigger.interval ≠ Time.zero →
        ∀ (pre : List Cycle) (c : Cycle) (post : List Cycle), cs = pre ++ c :: post →
          (∀ x ∈ pre,
            x.tick < (h p).trigger.start + (h p).trigger.interval ∨ x.suspended = true) →
          (h p).trigger.start + (h p).trigger.interval ≤ c.tick → c.suspended = false →
          n = 1 ∧
            (∀ (q1 : Queue) (h1 : Heap) (n1 : Nat),
              Queue.cycles q h p pre = some (q1, h1, n1) → n1 = 0) ∧
            (∀ (q1 : Queue) (h1 : Heap) (n1 : Nat),
              Queue.cycles q h p (pre ++ [c]) = some (q1, h1, n1) → n1 = 1)) := by
  have hdone := Cycle.ordered_mem cs lo hord
  obtain ⟨hbound, hpast, honce⟩ := Job.cycles_limit (h p) cs hI hL hok hdone
  obtain ⟨_, _, hn⟩ := Queue.cycles_job p cs q h q3 h3 n hmem hnd hrun
  refine ⟨by rw [hn]; exact hbound, ?_, ?_⟩
  · intro pre post q1 h1 n1 hcs hpre hlast
    obtain ⟨_, hh1, hn1⟩ := Queue.cycles_job p pre q h q1 h1 n1 hmem hnd hpre
    rw [hh1] at hlast ⊢
    obtain ⟨hdue, hcount⟩ := hpast pre post hcs hlast
    exact ⟨hdue, by rw [hn, hn1]; exact hcount⟩
  · intro hL1 hlast hnz pre c post hcs hpre hc hsus
    obtain ⟨h0, h1, hall⟩ := honce hL1 hlast hnz pre c post hcs hpre hc hsus
    refine ⟨by rw [hn]; exact hall, ?_, ?_⟩
    · intro q1 h1 n1 hrun1
      obtain ⟨_, _, hn1⟩ := Queue.cycles_job p pre q h q1 h1 n1 hmem hnd hrun1
      rw [hn1]; exact h0
    · intro q1 h2 n1 hrun1
      obtain ⟨_, _, hn1⟩ := Queue.cycles_job p (pre ++ [c]) q h q1 h2 n1 hmem hnd hrun1
      rw [hn1]; exact h1

/-- One cycle whose goroutines complete, followed by cycles that complete. -/
theorem Queue.cycles_step (q : Queue) (h : Heap) (p : JobPtr) (c : Cycle) (cs : List Cycle)
    (q2 : Queue) (h2 : Heap) (q3 : Queue) (h3 : Heap) (n : Nat)
    (hw : Queue.Run.workers
        (if c.suspended then (if c.drained then q.drained else q).Suspend
          else (if c.drained then q.drained else q).Resume) h
        ((if c.suspended then [] else
          q.Jobs.filter (fun x => (h x).due c.tick c.tick)).map (fun x => (x, c.done))) =
      some (q2, h2))
    (hrest : Queue.cycles q2 h2 p cs = some (q3, h3, n)) :
    Queue.cycles q h p (c :: cs) =
      some (q3, h3, n + (if c.suspended then [] else
        q.Jobs.filter (fun x => (h x).due c.tick c.tick)).count p) := by
  simp only [Queue.cycles]
  rw [Queue.cycles.launches_eq, hw]
  simp only [hrest]

/-- The queue of one job of the tests completes its cycles at the instants 100
and 200. -/
theorem Queue.cycles_tests_complete :
    ∃ q3 h3 n, Queue.cycles (NewQueue.Add 1) Heap.tests 1
      [⟨100, 101, false, false⟩, ⟨200, 201, false, true⟩] = some (q3, h3, n) := by
  have hcall : (Heap.tests 1).function.Call (Heap.tests 1).args =
      CallOutcome.returned [Value.str "test"] := rfl
  have hw1 := Queue.Run.worker_returned (NewQueue.Add 1).Resume Heap.tests 1 101
    [Value.str "test"] hcall (by decide) (by decide)
  have hlaunch : (NewQueue.Add 1).Jobs.filter (fun x => (Heap.tests x).due 100 100) = [1] := by
    have hj : (NewQueue.Add 1).Jobs = [1] := rfl
    rw [hj]
    simp [Heap.tests_due]
  have hlate : ∀ x ∈ (NewQueue.Add 1).Jobs, (Function.update Heap.tests 1
      { Heap.tests 1 with last := 101 } x).launched ⟨200, 201, false, true⟩ = false := by
    intro x hx
    have hx1 : x = 1 := by
      have hj : (NewQueue.Add 1).Jobs = [1] := rfl
      rw [hj] at hx
      simpa using hx
    subst hx1
    rw [Function.update_same]
    have hd : Job.due { Heap.tests 1 with last := 101 } 200 200 = false := by
      apply Job.due_false_of_consumed
      have htr : ({ Heap.tests 1 with last := 101 } : Job).trigger = Job.onceOnly.trigger :=
        rfl
      rw [htr, Trigger.Next_limit_one _ 200 (by decide) (by decide)]
      decide
    simp [Job.launched, hd]
  obtain ⟨q3, hq3⟩ := Queue.cycles_idle
    { (NewQueue.Add 1).Resume with results :=
      { (NewQueue.Add 1).Resume.results with
        buf := (NewQueue.Add 1).Resume.results.buf ++ [⟨(Heap.tests 1).Name, [Value.str "test"]⟩] } }
    (Function.update Heap.tests 1 { Heap.tests 1 with last := 101 }) 1
    ⟨200, 201, false, true⟩ hlate
  refine ⟨q3, _, _, Queue.cycles_step (NewQueue.Add 1) Heap.tests 1 ⟨100, 101, false, false⟩
    [⟨200, 201, false, true⟩] _ _ q3 _ 0 ?_ hq3⟩
  simp only [Bool.false_eq_true, if_false]
  rw [hlaunch]
  simp only [List.map, Queue.Run.workers]
  rw [hw1]

/-- Claim C3, amended, at the queue of one job of the tests (never run, every
1ns from the zero time, at most once), polled at the instants 100 and 200:
both cycles complete and the job is executed once. -/
theorem Queue.cycles_spec_witness :
    ∃ q3 h3, Queue.cycles (NewQueue.Add 1) Heap.tests 1
      [⟨100, 101, false, false⟩, ⟨200, 201, false, true⟩] = some (q3, h3, 1) := by
  obtain ⟨q3, h3, n, hrun⟩ := Queue.cycles_tests_complete
  have hspec := Queue.cycles_spec (NewQueue.Add 1) Heap.tests 1 0
    [⟨100, 101, false, false⟩, ⟨200, 201, false, true⟩] (by decide) (by decide)
    (by decide) (by decide) ⟨[Value.str "test"], rfl⟩ (by decide) q3 h3 n hrun
  have hn : n = 1 :=
    (hspec.2.2 (by decide) (by decide) (by decide) [] ⟨100, 101, false, false⟩
      [⟨200, 201, false, true⟩] rfl (by simp) (by decide) rfl).1
  rw [hn] at hrun
  exact ⟨q3, h3, hrun⟩

end Schedule
